import Mathlib

/-!
Shallow embedding of `src/osm_opensidewalks/osm_osw/osm/osm_graph.py`
(class `OSMGraph`): the builder (`from_pbf`'s way handler), `simplify`,
`construct_geometries`, `filter_edges`, and the geojson exchange codec
(`to_geojson` / `from_geojson`).

The underlying `networkx.MultiDiGraph` is embedded as a pair of
insertion-ordered lists: registered nodes (reference, optional
`(lon, lat)` attributes) and edge records `(u, v, key, data)`.  The
embedding mirrors networkx semantics used by the source: `add_node`
updates attributes in place, `add_edge`/`add_edges_from` auto-create
endpoint nodes without attributes and assign the next free key,
`remove_edge` without a key removes the most recently added parallel
edge, `G[u][v][0]` looks up the parallel edge with key `0`,
`predecessors`/`successors` list distinct neighbor nodes in adjacency
(first-edge-insertion) order, and `G.edges(data=True)` enumerates by
source-node insertion order, then adjacency order, then key order.

Coordinates (Python floats) are modelled as rationals; the geodesic
length calculator (external `pyproj`) is an injected function
parameter.  Python-level crashes (KeyError / StopIteration /
NetworkXError on the graph-library calls the source makes without
guarding) are modelled by `Option` / `Except` results.
-/

/-- A longitude/latitude pair, as registered by `add_node(u, lon=..., lat=...)`. -/
abbrev Coord := Rat × Rat

/-- Attribute dictionary of an edge.  The source stores `osm_id` and
`segment` (always present on builder output), `ndref` (deleted by
`construct_geometries`, hence optional), `geometry` and `length`
(absent until `construct_geometries`), plus the opaque normalized-tag
mapping, carried verbatim. -/
structure EdgeAttrs where
  osm_id : Int
  segment : Int
  ndref : Option (List Int)
  geometry : Option (List Coord)
  length : Option Rat
  tags : List (String × String)
deriving DecidableEq, Repr

/-- One stored multigraph edge: endpoints, networkx parallel-edge key,
and the attribute dictionary. -/
structure Edge where
  u : Int
  v : Int
  key : Nat
  data : EdgeAttrs
deriving DecidableEq, Repr

/-- The `networkx.MultiDiGraph` state: node registry and edge list, both
in insertion order. -/
structure Graph where
  nodesL : List (Int × Option Coord)
  edges : List Edge
deriving DecidableEq, Repr

def emptyG : Graph := ⟨[], []⟩

def nodeKeys (G : Graph) : List Int := G.nodesL.map Prod.fst

/-- Attribute lookup `G._node[r]`: `none` when the node is absent,
`some a` with its (possibly empty) attribute dict otherwise. -/
def nodeCoord (G : Graph) (r : Int) : Option (Option Coord) :=
  (G.nodesL.find? (fun kv => decide (kv.1 = r))).map Prod.snd

/-- Auto-creation of an endpoint by `add_edge`: registers the node with
no attributes when missing, otherwise leaves the registry unchanged. -/
def ensureNode (G : Graph) (r : Int) : Graph :=
  if r ∈ nodeKeys G then G else { G with nodesL := G.nodesL ++ [(r, none)] }

/-- Semantics of `add_node(r, **d)`: update the attributes of an existing
node (an empty attribute dict changes nothing), or append a new entry. -/
def setNodeAttr (G : Graph) (r : Int) (d : Option Coord) : Graph :=
  if r ∈ nodeKeys G then
    match d with
    | none => G
    | some c => { G with nodesL := G.nodesL.map (fun kv => if kv.1 = r then (kv.1, some c) else kv) }
  else { G with nodesL := G.nodesL ++ [(r, d)] }

/-- The parallel edges from `u` to `v`, in key-insertion order. -/
def parallelEdges (G : Graph) (u v : Int) : List Edge :=
  G.edges.filter (fun e => decide (e.u = u ∧ e.v = v))

/-- Fuel-bounded rendering of networkx `new_edge_key`'s
`while key in keydict: key += 1` loop; the fuel is sufficient by
pigeonhole, so the loop is modelled exactly. -/
def findFree (ks : List Nat) : Nat → Nat → Nat
  | 0, k => k
  | fuel+1, k => if k ∈ ks then findFree ks fuel (k+1) else k

/-- networkx `new_edge_key`: start at the number of existing parallel
edges and bump past collisions. -/
def newEdgeKey (G : Graph) (u v : Int) : Nat :=
  let ks := (parallelEdges G u v).map Edge.key
  findFree ks (ks.length + 1) ks.length

/-- `add_edge(u, v, **d)` / `add_edges_from([(u, v, d)])`: auto-create
endpoints, then append a fresh-keyed edge record. -/
def addEdge (G : Graph) (u v : Int) (d : EdgeAttrs) : Graph :=
  let g1 := ensureNode G u
  let g2 := ensureNode g1 v
  { g2 with edges := g2.edges ++ [⟨u, v, newEdgeKey g2 u v, d⟩] }

/-- `remove_edge(u, v)` with no key: remove the most recently added
parallel edge from `u` to `v`; raises (`none`) when there is none. -/
def removeEdgeLast (G : Graph) (u v : Int) : Option Graph :=
  if (parallelEdges G u v).isEmpty then none
  else some { G with edges := (G.edges.reverse.eraseP (fun e => decide (e.u = u ∧ e.v = v))).reverse }

/-- In-place replacement of the attribute dict of the edge `(u, v, k)`,
leaving its position unchanged (a Python dict mutation). -/
def updateEdgeData (G : Graph) (u v : Int) (k : Nat) (d : EdgeAttrs) : Graph :=
  { G with edges := G.edges.map (fun e => if e.u = u ∧ e.v = v ∧ e.key = k then { e with data := d } else e) }

/-- First-occurrence deduplication, with an accumulator of already-seen
values. -/
def dedupFirstAux (seen : List Int) : List Int → List Int
  | [] => []
  | x :: xs => if x ∈ seen then dedupFirstAux seen xs else x :: dedupFirstAux (x :: seen) xs

def dedupFirst (l : List Int) : List Int := dedupFirstAux [] l

/-- `list(G.successors(n))`: distinct successor nodes in adjacency
order, i.e. ordered by the oldest surviving edge to each target. -/
def successorsOrd (G : Graph) (n : Int) : List Int :=
  dedupFirst (G.edges.filterMap (fun e => if e.u = n then some e.v else none))

/-- `list(G.predecessors(n))`: distinct predecessor nodes in adjacency
order. -/
def predecessorsOrd (G : Graph) (n : Int) : List Int :=
  dedupFirst (G.edges.filterMap (fun e => if e.v = n then some e.u else none))

/-- `G[u][v][0]`: the attribute dict of the parallel edge with key `0`;
`none` models the KeyError when absent. -/
def edgeUV0 (G : Graph) (u v : Int) : Option EdgeAttrs :=
  (G.edges.find? (fun e => decide (e.u = u ∧ e.v = v ∧ e.key = 0))).map Edge.data

/-- `G.edges(data=True)` enumeration order: source nodes in insertion
order, then targets in adjacency order, then parallel keys. -/
def edgesEnum (G : Graph) : List Edge :=
  (nodeKeys G).flatMap (fun n => (successorsOrd G n).flatMap (fun v => parallelEdges G n v))

/-- Number of parallel edges from `u` to `v`. -/
def countUV (G : Graph) (u v : Int) : Nat := (parallelEdges G u v).length

/-- Well-formedness that networkx maintains by construction: every edge
endpoint is a registered node. -/
def closedGraph (G : Graph) : Prop :=
  ∀ e ∈ G.edges, e.u ∈ nodeKeys G ∧ e.v ∈ nodeKeys G

instance (G : Graph) : Decidable (closedGraph G) := by
  unfold closedGraph; infer_instance

/-- One decoded way: id, raw tags, and the location-aware node list
(reference with its longitude/latitude), as osmium hands it to the
`way` callback. -/
structure Way where
  id : Int
  tags : List (String × String)
  nodes : List (Int × Coord)
deriving DecidableEq, Repr

/-- The `for i in range(len(w.nodes) - 1)` traversal: consecutive node
pairs with their segment index. -/
def segmentsOf {α : Type} (ns : List α) : List (Nat × α × α) := (ns.zip ns.tail).enum

/-- The attribute dict `d3` built for segment `i` of a way. -/
def segAttrs (wid : Int) (tg : List (String × String)) (i : Nat) (a b : Int) : EdgeAttrs :=
  { osm_id := wid, segment := (i : Int), ndref := some [a, b]
    geometry := none, length := none, tags := tg }

/-- The `way` handler of `from_pbf`'s `OSMParser`: skip the way unless
the filter accepts its tags; otherwise add one edge per consecutive
node pair and register both endpoint coordinates.  `norm` is the
injected external tag normalizer (`OSWNormalizer(...).normalize()`). -/
def wayStep (wfil : List (String × String) → Bool)
    (norm : List (String × String) → List (String × String))
    (G : Graph) (w : Way) : Graph :=
  if wfil w.tags then
    (segmentsOf w.nodes).foldl (fun g iuv =>
      let g1 := addEdge g iuv.2.1.1 iuv.2.2.1 (segAttrs w.id (norm w.tags) iuv.1 iuv.2.1.1 iuv.2.2.1)
      let g2 := setNodeAttr g1 iuv.2.1.1 (some iuv.2.1.2)
      setNodeAttr g2 iuv.2.2.1 (some iuv.2.2.2)) G
  else G

/-- `OSMGraph.from_pbf`: run the way handler over the decoded way
stream, starting from an empty `MultiDiGraph`. -/
def from_pbf (wfil : List (String × String) → Bool)
    (norm : List (String × String) → List (String × String))
    (ways : List Way) : Graph :=
  ways.foldl (wayStep wfil norm) emptyG

/-- The tuple `(node_in, node, node_out, edge_in["segment"])` collected
by `simplify`'s first pass. -/
structure Cand where
  nin : Int
  n : Int
  nout : Int
  seg : Int
deriving DecidableEq, Repr

/-- Python-dict update `d[k] = v`: replace in place when the key exists,
else append. -/
def dictSet {κ ν : Type} [DecidableEq κ] (d : List (κ × ν)) (k : κ) (x : ν) : List (κ × ν) :=
  if (d.find? (fun kv => decide (kv.1 = k))).isSome then
    d.map (fun kv => if kv.1 = k then (kv.1, x) else kv)
  else d ++ [(k, x)]

/-- The `if k in d: d[k].append(x) else: d[k] = [x]` pattern. -/
def dictAppend {κ : Type} {ν : Type} [DecidableEq κ] (d : List (κ × List ν)) (k : κ) (x : ν) : List (κ × List ν) :=
  if (d.find? (fun kv => decide (kv.1 = k))).isSome then
    d.map (fun kv => if kv.1 = k then (kv.1, kv.2 ++ [x]) else kv)
  else d ++ [(k, [x])]

/-- One iteration of `simplify`'s first loop (`for node in self.G.nodes`):
collect the node as a pass-through candidate of its way when it has
exactly one predecessor and one successor and the two key-0 incident
edges carry the same `osm_id`.  The `G[...][...][0]` lookups can raise
(`none`). -/
def phase1Step (G : Graph) (acc : List (Int × List Cand)) (node : Int) :
    Option (List (Int × List Cand)) :=
  match predecessorsOrd G node, successorsOrd G node with
  | [p], [s] =>
    match edgeUV0 G p node, edgeUV0 G node s with
    | some din, some dout =>
      if din.osm_id ≠ dout.osm_id then some acc
      else some (dictAppend acc din.osm_id ⟨p, node, s, din.segment⟩)
    | _, _ => none
  | _, _ => some acc

/-- The `remove_nodes` dictionary (`way_id ↦ candidate tuples`), built in
node-iteration order. -/
def phase1 (G : Graph) : Option (List (Int × List Cand)) :=
  (nodeKeys G).foldlM (phase1Step G) []

/-- Stable insertion into a `seg`-ascending list (insert before the
first strictly greater element). -/
def insertCand (c : Cand) : List Cand → List Cand
  | [] => [c]
  | x :: xs => if x.seg < c.seg then x :: insertCand c xs else c :: x :: xs

/-- `sorted(node_data, key=lambda x: x[3])`: stable ascending sort by
segment number. -/
def sortCands : List Cand → List Cand
  | [] => []
  | c :: cs => insertCand c (sortCands cs)

/-- The grouping loop of `simplify`: walk sorted candidates keeping
`last_s` and the current `receiving_edge`; a non-unit segment jump
starts a new group (resetting any same-keyed previous group, as the
dict assignment does).  A unit jump on the very first iteration would
read the unassigned `receiving_edge` variable (NameError), modelled by
the `none` branch. -/
def buildGroupsAux : List ((Int × Int) × List Int) → Int → Option (Int × Int) → List Cand →
    Option (List ((Int × Int) × List Int))
  | acc, _, _, [] => some acc
  | acc, lastS, recv, c :: rest =>
    if c.seg - lastS ≠ 1 then
      buildGroupsAux (dictAppend (dictSet acc (c.nin, c.n) []) (c.nin, c.n) c.n) c.seg (some (c.nin, c.n)) rest
    else
      match recv with
      | none => none
      | some r => buildGroupsAux (dictAppend acc r c.n) c.seg (some r) rest

def buildGroups (cs : List Cand) : Option (List ((Int × Int) × List Int)) :=
  buildGroupsAux [] (-10) none cs

/-- Processing of one group `((u, v), nodes)` in `simplify`'s second
pass: read the receiving edge `G[u][v][0]` and its `ndref`; for each
group node take its first successor in the current graph, append that
successor to the receiving chain and remove the corresponding edge;
finally re-add `(u, node, edge_data)` where `node` is the leaked loop
variable, i.e. the last group node (this is what line 182 of the source
does). -/
def processGroup (g0 : Graph) (u v : Int) (nds : List Int) : Option Graph := do
  let d0 ← edgeUV0 g0 u v
  let nd0 ← d0.ndref
  let st ← nds.foldlM (fun (st : Graph × List Int) node => do
      let f ← (successorsOrd st.1 node).head?
      let g' ← removeEdgeLast st.1 node f
      some (g', st.2 ++ [f])) (g0, [])
  let lastN ← nds.getLast?
  let newData : EdgeAttrs := { d0 with ndref := some (nd0 ++ st.2) }
  some (addEdge (updateEdgeData st.1 u v 0 newData) u lastN newData)

/-- `OSMGraph.simplify`: collect pass-through candidates per way, then
per way sort them by segment, partition into consecutive-segment
groups, and collapse each group onto its receiving edge. -/
def simplify (G : Graph) : Option Graph := do
  let rn ← phase1 G
  rn.foldlM (fun g wd => do
      let grps ← buildGroups (sortCands wd.2)
      grps.foldlM (fun g' gr => processGroup g' gr.1.1 gr.1.2 gr.2) g) G

/-- Exceptions observable from `construct_geometries` (and the exchange
codec).  `keyError r` is the Python `KeyError` from `self.G._node[ref]`
on an unregistered reference; `keyErrorLonLat r` the `KeyError` from
reading `lon`/`lat` off a node registered without coordinates;
`keyErrorNdref` the `KeyError` from a missing `ndref` attribute;
`valueError` the shapely error for a `LineString` with fewer than two
points (modelled from the spec, which requires ≥ 2 points — shapely is
external).  `geometryError` is modelled from the spec: §7 of the spec
names a `GeometryError` class for unresolved references, but no such
class exists in the source, which never raises it; the constructor
exists so that the spec's error-class statement can be compared with
the code's behavior. -/
inductive PyExc where
  | keyError : Int → PyExc
  | keyErrorLonLat : Int → PyExc
  | keyErrorNdref : PyExc
  | valueError : PyExc
  | geometryError : PyExc
deriving DecidableEq, Repr

/-- Python `round(x, 1)` on the geodesic length: round to the nearest
tenth (Python's float half-to-even tie behavior is abstracted to
half-up on rationals; no claim depends on tie cases).  Written with
integer floor division: for `q = n / d`, `10 q + 1 / 2 = (20 n + d) / (2 d)`,
whose floor is the rounded number of tenths. -/
def roundTenth (q : Rat) : Rat := mkRat ((20 * q.num + (q.den : Int)).fdiv (2 * (q.den : Int))) 10

/-- Effectful traversal of a list under `Except`, mirroring a Python
for-loop that can raise: first error aborts. -/
def mapExcept {eps alpha beta : Type} (f : alpha → Except eps beta) :
    List alpha → Except eps (List beta)
  | [] => .ok []
  | a :: l =>
    match f a with
    | .error e => .error e
    | .ok b =>
      match mapExcept f l with
      | .error e => .error e
      | .ok bs => .ok (b :: bs)

/-- Effectful traversal of a list under `Option`. -/
def mapOption {alpha beta : Type} (f : alpha → Option beta) : List alpha → Option (List beta)
  | [] => some []
  | a :: l =>
    match f a with
    | none => none
    | some b =>
      match mapOption f l with
      | none => none
      | some bs => some (b :: bs)

/-- Resolution of one `ndref` entry to `(node_d["lon"], node_d["lat"])`. -/
def resolveCoord (G : Graph) (r : Int) : Except PyExc Coord :=
  match nodeCoord G r with
  | none => .error (.keyError r)
  | some none => .error (.keyErrorLonLat r)
  | some (some c) => .ok c

/-- The per-edge body of `construct_geometries`: resolve the chain,
build the `LineString`, attach geometry and rounded geodesic length,
delete `ndref`. -/
def edgeGeomStep (geod : List Coord → Rat) (G : Graph) (e : Edge) : Except PyExc Edge :=
  match e.data.ndref with
  | none => .error .keyErrorNdref
  | some nd =>
    match mapExcept (resolveCoord G) nd with
    | .error er => .error er
    | .ok coords =>
      if coords.length < 2 then .error .valueError
      else
        .ok { e with data :=
          { e.data with
            ndref := none
            geometry := some coords
            length := some (roundTenth (geod coords)) } }

/-- `OSMGraph.construct_geometries`: transform every edge's attributes
in place; the node registry is untouched.  `geod` is the injected
external geodesic calculator (`pyproj.Geod.geometry_length`). -/
def construct_geometries (geod : List Coord → Rat) (G : Graph) : Except PyExc Graph :=
  match mapExcept (edgeGeomStep geod G) G.edges with
  | .error er => .error er
  | .ok es => .ok { G with edges := es }

/-- One record of the exchange document written by `to_geojson`: the
popped geometry, the reserved endpoint keys `_u`/`_v`, and the
remaining properties. -/
structure Feature where
  geometry : List Coord
  fu : Int
  fv : Int
  props : EdgeAttrs
deriving DecidableEq, Repr

/-- `OSMGraph.to_geojson` (minus the file write, which is external):
one feature per edge in `G.edges(data=True)` order; popping a missing
`geometry` raises (`none`). -/
def to_geojson (G : Graph) : Option (List Feature) :=
  mapOption (fun e =>
    match e.data.geometry with
    | none => none
    | some geom => some ⟨geom, e.u, e.v, { e.data with geometry := none }⟩) (edgesEnum G)

/-- `OSMGraph.from_geojson` (minus the file read): rebuild a fresh
`MultiDiGraph` by popping `_u`/`_v`, restoring the parsed geometry into
the properties and adding the edge; nodes arise only by edge-endpoint
auto-creation, without attributes. -/
def from_geojson (fs : List Feature) : Graph :=
  fs.foldl (fun g f => addEdge g f.fu f.fv { f.props with geometry := some f.geometry }) emptyG

/-- `OSMGraph.filter_edges`: copy the edges satisfying the predicate
into a fresh graph (in `G.edges(data=True)` order), then copy each
resulting node's attribute dict from the source registry (a missing
source node would raise). -/
def filter_edges (p : Int → Int → EdgeAttrs → Bool) (G : Graph) : Option Graph := do
  let base := ((edgesEnum G).filter (fun e => p e.u e.v e.data)).foldl
    (fun g e => addEdge g e.u e.v e.data) emptyG
  (nodeKeys base).foldlM (fun g n =>
      match nodeCoord G n with
      | none => none
      | some d => some (setNodeAttr g n d)) base

/-- Projection of an edge record to what the spec's claims compare:
endpoints and attribute values (parallel-edge keys are a networkx
bookkeeping detail). -/
def toTriple (e : Edge) : Int × Int × EdgeAttrs := (e.u, e.v, e.data)

/-- Concatenation of every edge's node-reference chain, in edge order. -/
def concatChains (G : Graph) : List Int :=
  G.edges.flatMap (fun e => e.data.ndref.getD [])

/-- The spec's notion of chaining segment `node_ref_chain`s: keep the
first chain whole and drop the shared leading endpoint of each
subsequent chain. -/
def chainConcat : List (List Int) → List Int
  | [] => []
  | l :: rest => l ++ rest.flatMap List.tail

/-- The spec's concrete scenario way `[100, 101, 102, 103]` (§8), with
distinct coordinates. -/
def sWay : Way :=
  { id := 1, tags := [], nodes := [(100, (0, 0)), (101, (1, 0)), (102, (2, 0)), (103, (3, 1))] }

/-- A trivial geodesic calculator for concrete evaluations. -/
def geod0 : List Coord → Rat := fun _ => 0

def sG0 : Graph := from_pbf (fun _ => true) (fun t => t) [sWay]

def sG1 : Graph := (simplify sG0).getD emptyG

deriving instance DecidableEq for Except

def sG2 : Graph := match construct_geometries geod0 sG1 with | .ok g => g | .error _ => emptyG

/-- First coordinate of an edge's constructed geometry. -/
def geomFirst (e : Edge) : Option Coord := e.data.geometry.bind List.head?

/-- Last coordinate of an edge's constructed geometry. -/
def geomLast (e : Edge) : Option Coord := e.data.geometry.bind List.getLast?

/-- The registered coordinates of a node, when present. -/
def coordOf (G : Graph) (r : Int) : Option Coord := (nodeCoord G r).bind id

/-- C1.  Evaluation of `simplify` at the spec's own scenario (a single
way `[100, 101, 102, 103]` with no internal branch points): instead of
collapsing to one edge `100 → 103`, the code keeps the receiving edge
`100 → 101` and adds a second edge `100 → 102` (the leaked loop
variable of line 182), both carrying the full chain; no edge with the
claimed endpoints `(100, 103)` exists. -/
theorem c1_simplify_run_collapse_eval :
    simplify sG0 = some sG1 ∧
    sG1.edges.map (fun e => (e.u, e.v, e.data.ndref)) =
      [(100, 101, some [100, 101, 102, 103]), (100, 102, some [100, 101, 102, 103])] ∧
    ¬ ∃ e ∈ sG1.edges, e.u = 100 ∧ e.v = 103 := by decide

/-- C2.  Evaluation at the same scenario: simplification duplicates the
whole node-reference chain onto the extra edge, so the concatenated
references are not preserved as a multiset (100 and 103 each occur once
before and twice after). -/
theorem c2_concat_chains_eval :
    concatChains sG0 = [100, 101, 101, 102, 102, 103] ∧
    concatChains sG1 = [100, 101, 102, 103, 100, 101, 102, 103] ∧
    (concatChains sG0).count 100 = 1 ∧ (concatChains sG1).count 100 = 2 ∧
    ¬ (concatChains sG1).Perm (concatChains sG0) := by decide

/-- C4 counterexample.  After building and simplifying the scenario,
`construct_geometries` succeeds, but the surviving edge `100 → 101`
carries the full way's polyline, whose last coordinate is node 103's,
not node 101's: the claimed endpoint property fails for
built-then-simplified graphs. -/
theorem c4_counterexample :
    simplify sG0 = some sG1 ∧ construct_geometries geod0 sG1 = .ok sG2 ∧
    ¬ (∀ e ∈ sG2.edges, geomFirst e = coordOf sG2 e.u ∧ geomLast e = coordOf sG2 e.v) := by
  decide

/-- A one-edge graph whose chain references node 2, which is not
registered. -/
def badG : Graph :=
  { nodesL := [(1, some (0, 0))]
    edges := [⟨1, 2, 0,
      { osm_id := 7, segment := 0, ndref := some [1, 2]
        geometry := none, length := none, tags := [] }⟩] }

/-- C5 counterexample.  On a graph with an unresolvable node reference,
`construct_geometries` surfaces the dictionary lookup's `KeyError`
(`self.G._node[ref]`), not a `GeometryError` — no such class exists in
the source. -/
theorem c5_counterexample :
    construct_geometries geod0 badG = .error (.keyError 2) ∧
    construct_geometries geod0 badG ≠ .error .geometryError := by decide

/-- A way whose node list has fewer than two entries produces no
segment iterations. -/
theorem segmentsOf_eq_nil {α : Type} (ns : List α) (h : ns.length < 2) : segmentsOf ns = [] := by
  cases ns with
  | nil => rfl
  | cons a t =>
    cases t with
    | nil => rfl
    | cons b t2 =>
      simp only [List.length_cons] at h
      omega

/-- C10.  A way with fewer than two node references makes the per-way
segment loop iterate zero times, so the handler leaves the graph
exactly as it was: no edges and no node registrations. -/
theorem c10_short_way_noop (wfil : List (String × String) → Bool)
    (norm : List (String × String) → List (String × String))
    (G : Graph) (w : Way) (h : w.nodes.length < 2) :
    wayStep wfil norm G w = G := by
  unfold wayStep
  rw [segmentsOf_eq_nil w.nodes h]
  split <;> rfl

def shortWay : Way := { id := 5, tags := [], nodes := [(7, (0, 0))] }

theorem c10_short_way_noop_w :
    shortWay.nodes.length < 2 ∧ wayStep (fun _ => true) (fun t => t) emptyG shortWay = emptyG :=
  ⟨by decide, c10_short_way_noop (fun _ => true) (fun t => t) emptyG shortWay (by decide)⟩

theorem ensureNode_edges (G : Graph) (r : Int) : (ensureNode G r).edges = G.edges := by
  unfold ensureNode; split <;> rfl

theorem ensureNode_of_mem (G : Graph) (r : Int) (h : r ∈ nodeKeys G) : ensureNode G r = G := by
  unfold ensureNode; rw [if_pos h]

theorem setNodeAttr_edges (G : Graph) (r : Int) (d : Option Coord) :
    (setNodeAttr G r d).edges = G.edges := by
  unfold setNodeAttr; split
  · cases d <;> rfl
  · rfl

theorem addEdge_edges_exists (G : Graph) (u v : Int) (d : EdgeAttrs) :
    ∃ k, (addEdge G u v d).edges = G.edges ++ [⟨u, v, k, d⟩] := by
  refine ⟨newEdgeKey (ensureNode (ensureNode G u) v) u v, ?_⟩
  show (ensureNode (ensureNode G u) v).edges ++ _ = _
  rw [ensureNode_edges, ensureNode_edges]

theorem addEdge_edges_map (G : Graph) (u v : Int) (d : EdgeAttrs) :
    ((addEdge G u v d).edges).map toTriple = G.edges.map toTriple ++ [(u, v, d)] := by
  obtain ⟨k, hk⟩ := addEdge_edges_exists G u v d
  rw [hk]; simp [toTriple]

/-- Folding a step that appends one edge per element appends the mapped
list, at the level of `(u, v, data)` triples. -/
theorem foldl_edges_map {α : Type} (s : Graph → α → Graph) (f : α → Int × Int × EdgeAttrs)
    (hs : ∀ g x, ((s g x).edges).map toTriple = g.edges.map toTriple ++ [f x]) :
    ∀ (l : List α) (g : Graph),
      ((l.foldl s g).edges).map toTriple = g.edges.map toTriple ++ l.map f := by
  intro l
  induction l with
  | nil => intro g; simp
  | cons x xs ih => intro g; rw [List.foldl_cons, ih, hs]; simp

theorem segmentsOf_length {α : Type} (ns : List α) : (segmentsOf ns).length = ns.length - 1 := by
  simp only [segmentsOf, List.enum_length, List.length_zip, List.length_tail]
  omega

theorem flatMap_tail_pairs (ns : List Int) :
    ((ns.zip ns.tail).map (fun p => [p.1, p.2])).flatMap List.tail = ns.tail := by
  induction ns with
  | nil => rfl
  | cons x xs ih =>
    cases xs with
    | nil => rfl
    | cons y ys =>
      simp only [List.tail_cons, List.zip_cons_cons, List.map_cons, List.flatMap_cons] at ih ⊢
      rw [ih]
      rfl

theorem map_enum_snd_comp {α β : Type} (l : List α) (g : α → β) :
    l.enum.map (fun p => g p.2) = l.map g := by
  have h := congrArg (List.map g) (List.enum_map_snd l)
  rw [List.map_map] at h
  exact h

theorem chainConcat_pairs (ns : List Int) (h : 2 ≤ ns.length) :
    chainConcat ((ns.zip ns.tail).map (fun p => [p.1, p.2])) = ns := by
  cases ns with
  | nil => simp at h
  | cons a t =>
    cases t with
    | nil => simp at h
    | cons b t2 =>
      simp only [List.tail_cons, List.zip_cons_cons, List.map_cons, chainConcat]
      have := flatMap_tail_pairs (b :: t2)
      simp only [List.tail_cons] at this
      rw [this]
      rfl

/-- C3.  For an accepted way with `k+1` node references the builder
emits exactly `k` edges; edge `i` connects the `i`-th reference to the
`(i+1)`-th, carries `segment = i` and `ndref` equal to the two endpoint
references; and chaining the per-segment `ndref`s in segment order
reconstructs the way's full node-reference sequence. -/
theorem c3_segment_emission (wfil : List (String × String) → Bool)
    (norm : List (String × String) → List (String × String))
    (w : Way) (k : Nat) (hacc : wfil w.tags = true) (hk : w.nodes.length = k + 1) :
    (from_pbf wfil norm [w]).edges.length = k ∧
    ((from_pbf wfil norm [w]).edges).map toTriple =
      (segmentsOf w.nodes).map
        (fun iuv => (iuv.2.1.1, iuv.2.2.1, segAttrs w.id (norm w.tags) iuv.1 iuv.2.1.1 iuv.2.2.1)) ∧
    (2 ≤ w.nodes.length →
      chainConcat ((from_pbf wfil norm [w]).edges.map (fun e => e.data.ndref.getD [])) =
        w.nodes.map Prod.fst) := by
  have hG : from_pbf wfil norm [w] = wayStep wfil norm emptyG w := rfl
  have hmain : ((from_pbf wfil norm [w]).edges).map toTriple =
      (segmentsOf w.nodes).map
        (fun iuv => (iuv.2.1.1, iuv.2.2.1, segAttrs w.id (norm w.tags) iuv.1 iuv.2.1.1 iuv.2.2.1)) := by
    rw [hG]
    unfold wayStep
    rw [if_pos hacc]
    have h1 := foldl_edges_map
      (fun g iuv =>
        setNodeAttr (setNodeAttr
          (addEdge g iuv.2.1.1 iuv.2.2.1 (segAttrs w.id (norm w.tags) iuv.1 iuv.2.1.1 iuv.2.2.1))
          iuv.2.1.1 (some iuv.2.1.2)) iuv.2.2.1 (some iuv.2.2.2))
      (fun iuv => (iuv.2.1.1, iuv.2.2.1, segAttrs w.id (norm w.tags) iuv.1 iuv.2.1.1 iuv.2.2.1))
      (fun g x => by
        show ((setNodeAttr (setNodeAttr (addEdge g _ _ _) _ _) _ _).edges).map toTriple = _
        rw [setNodeAttr_edges, setNodeAttr_edges, addEdge_edges_map])
      (segmentsOf w.nodes) emptyG
    simpa using h1
  refine ⟨?_, hmain, ?_⟩
  · have := congrArg List.length hmain
    simp only [List.length_map] at this
    rw [this, segmentsOf_length, hk]
    omega
  · intro h2
    have hnd : (from_pbf wfil norm [w]).edges.map (fun e => e.data.ndref.getD []) =
        (segmentsOf w.nodes).map (fun iuv => [iuv.2.1.1, iuv.2.2.1]) := by
      have h3 := congrArg (List.map (fun t : Int × Int × EdgeAttrs => t.2.2.ndref.getD [])) hmain
      simpa [List.map_map, Function.comp, toTriple, segAttrs] using h3
    rw [hnd]
    have h4 : (segmentsOf w.nodes).map (fun iuv => [iuv.2.1.1, iuv.2.2.1]) =
        (w.nodes.zip w.nodes.tail).map (fun uv => [uv.1.1, uv.2.1]) := by
      unfold segmentsOf
      exact map_enum_snd_comp (w.nodes.zip w.nodes.tail) (fun uv => [uv.1.1, uv.2.1])
    rw [h4]
    have h6 : (w.nodes.zip w.nodes.tail).map (fun uv => [uv.1.1, uv.2.1]) =
        ((w.nodes.map Prod.fst).zip ((w.nodes.map Prod.fst).tail)).map (fun p => [p.1, p.2]) := by
      rw [← List.map_tail, List.zip_map, List.map_map]
      rfl
    rw [h6]
    exact chainConcat_pairs (w.nodes.map Prod.fst) (by simpa using h2)

theorem c3_segment_emission_w :
    ((fun _ : List (String × String) => true) sWay.tags = true) ∧ sWay.nodes.length = 3 + 1 ∧
    ((from_pbf (fun _ => true) (fun t => t) [sWay]).edges.length = 3 ∧
      ((from_pbf (fun _ => true) (fun t => t) [sWay]).edges).map toTriple =
        (segmentsOf sWay.nodes).map
          (fun iuv => (iuv.2.1.1, iuv.2.2.1, segAttrs sWay.id ((fun t => t) sWay.tags) iuv.1 iuv.2.1.1 iuv.2.2.1)) ∧
      (2 ≤ sWay.nodes.length →
        chainConcat ((from_pbf (fun _ => true) (fun t => t) [sWay]).edges.map
          (fun e => e.data.ndref.getD [])) = sWay.nodes.map Prod.fst)) :=
  ⟨rfl, rfl, c3_segment_emission (fun _ => true) (fun t => t) sWay 3 rfl rfl⟩

theorem mapExcept_ok_forall₂ {eps alpha beta : Type} (f : alpha → Except eps beta) :
    ∀ (l : List alpha) (ys : List beta), mapExcept f l = .ok ys →
      List.Forall₂ (fun a b => f a = .ok b) l ys := by
  intro l
  induction l with
  | nil =>
    intro ys h
    simp only [mapExcept, Except.ok.injEq] at h
    subst h
    exact List.Forall₂.nil
  | cons a l ih =>
    intro ys h
    unfold mapExcept at h
    cases hfa : f a with
    | error e => rw [hfa] at h; exact absurd h (by simp)
    | ok b =>
      rw [hfa] at h
      cases hml : mapExcept f l with
      | error e => rw [hml] at h; exact absurd h (by simp)
      | ok bs =>
        rw [hml] at h
        simp only [Except.ok.injEq] at h
        subst h
        exact List.Forall₂.cons hfa (ih bs hml)

theorem mapExcept_ok_of_forall {eps alpha beta : Type} (f : alpha → Except eps beta) :
    ∀ (l : List alpha), (∀ a ∈ l, ∃ b, f a = .ok b) → ∃ ys, mapExcept f l = .ok ys := by
  intro l
  induction l with
  | nil => intro _; exact ⟨[], rfl⟩
  | cons a l ih =>
    intro h
    obtain ⟨b, hb⟩ := h a (by simp)
    obtain ⟨bs, hbs⟩ := ih (fun x hx => h x (by simp [hx]))
    refine ⟨b :: bs, ?_⟩
    unfold mapExcept
    rw [hb, hbs]

theorem mapExcept_classify {alpha beta : Type} (f : alpha → Except PyExc beta) (P : PyExc → Prop) :
    ∀ (l : List alpha), (∀ a ∈ l, (∃ b, f a = .ok b) ∨ ∃ er, f a = .error er ∧ P er) →
      (∃ ys, mapExcept f l = .ok ys) ∨ ∃ er, mapExcept f l = .error er ∧ P er := by
  intro l
  induction l with
  | nil => intro _; exact .inl ⟨[], rfl⟩
  | cons a l ih =>
    intro h
    rcases h a (by simp) with ⟨b, hb⟩ | ⟨er, her, hP⟩
    · rcases ih (fun x hx => h x (by simp [hx])) with ⟨bs, hbs⟩ | ⟨er, her, hP⟩
      · exact .inl ⟨b :: bs, by unfold mapExcept; rw [hb, hbs]⟩
      · exact .inr ⟨er, by unfold mapExcept; rw [hb, her], hP⟩
    · exact .inr ⟨er, by unfold mapExcept; rw [her], hP⟩

theorem forall₂_mem_left {alpha beta : Type} {R : alpha → beta → Prop} :
    ∀ {l : List alpha} {ys : List beta}, List.Forall₂ R l ys → ∀ a ∈ l, ∃ b, R a b := by
  intro l ys h
  induction h with
  | nil => intro a ha; simp at ha
  | cons hR _ ih =>
    intro a ha
    rcases List.mem_cons.mp ha with rfl | ha2
    · exact ⟨_, hR⟩
    · exact ih a ha2

theorem mapExcept_ne_ok {eps alpha beta : Type} (f : alpha → Except eps beta) (l : List alpha)
    (a : alpha) (ha : a ∈ l) (er : eps) (he : f a = .error er) (ys : List beta) :
    mapExcept f l ≠ .ok ys := by
  intro h
  obtain ⟨b, hb⟩ := forall₂_mem_left (mapExcept_ok_forall₂ f l ys h) a ha
  rw [he] at hb
  exact absurd hb (by simp)

theorem forall₂_head? {alpha beta : Type} {R : alpha → beta → Prop} {l : List alpha}
    {ys : List beta} (h : List.Forall₂ R l ys) {a : alpha} (ha : l.head? = some a) :
    ∃ b, ys.head? = some b ∧ R a b := by
  cases h with
  | nil => simp at ha
  | cons hR htail =>
    simp only [List.head?_cons, Option.some.injEq] at ha
    subst ha
    exact ⟨_, rfl, hR⟩

theorem forall₂_getLast? {alpha beta : Type} {R : alpha → beta → Prop} {l : List alpha}
    {ys : List beta} (h : List.Forall₂ R l ys) {a : alpha} (ha : l.getLast? = some a) :
    ∃ b, ys.getLast? = some b ∧ R a b := by
  have hrev : List.Forall₂ R l.reverse ys.reverse := List.forall₂_reverse_iff.mpr h
  rw [List.getLast?_eq_head?_reverse] at ha
  obtain ⟨b, hb, hR⟩ := forall₂_head? hrev ha
  rw [List.head?_reverse] at hb
  exact ⟨b, hb, hR⟩

theorem resolveCoord_ok_iff (G : Graph) (r : Int) (c : Coord) :
    resolveCoord G r = .ok c ↔ coordOf G r = some c := by
  unfold resolveCoord coordOf
  cases h : nodeCoord G r with
  | none => simp
  | some o => cases o <;> simp

theorem forall₂_mem_right {alpha beta : Type} {R : alpha → beta → Prop} :
    ∀ {l : List alpha} {ys : List beta}, List.Forall₂ R l ys → ∀ b ∈ ys, ∃ a ∈ l, R a b := by
  intro l ys h
  induction h with
  | nil => intro b hb; simp at hb
  | cons hR _ ih =>
    intro b hb
    rcases List.mem_cons.mp hb with rfl | hb2
    · exact ⟨_, by simp, hR⟩
    · obtain ⟨a, ha, hr⟩ := ih b hb2
      exact ⟨a, by simp [ha], hr⟩

/-- C4 (amended).  If every edge's `ndref` chain starts at its `u` and
ends at its `v`, then after a successful `construct_geometries` run
every edge's first geometry coordinate is the registered coordinate
pair of `u` and its last is that of `v`. -/
theorem c4_geometry_endpoints (geod : List Coord → Rat) (G GC : Graph)
    (hch : ∀ e ∈ G.edges, e.data.ndref.isSome ∧
      (e.data.ndref.getD []).head? = some e.u ∧ (e.data.ndref.getD []).getLast? = some e.v)
    (hok : construct_geometries geod G = .ok GC) :
    ∀ e ∈ GC.edges, ∃ g cu cv, e.data.geometry = some g ∧
      coordOf GC e.u = some cu ∧ g.head? = some cu ∧
      coordOf GC e.v = some cv ∧ g.getLast? = some cv := by
  unfold construct_geometries at hok
  cases hm : mapExcept (edgeGeomStep geod G) G.edges with
  | error er => rw [hm] at hok; exact absurd hok (by simp)
  | ok es =>
    rw [hm] at hok
    simp only [Except.ok.injEq] at hok
    have hes : GC.edges = es := by rw [← hok]
    have hco : ∀ r, coordOf GC r = coordOf G r := by
      intro r; unfold coordOf nodeCoord; rw [← hok]
    intro e he
    rw [hes] at he
    obtain ⟨e0, he0, hstep⟩ :=
      forall₂_mem_right (mapExcept_ok_forall₂ (edgeGeomStep geod G) G.edges es hm) e he
    obtain ⟨hsome, hhd, hlast⟩ := hch e0 he0
    unfold edgeGeomStep at hstep
    cases hnd : e0.data.ndref with
    | none => rw [hnd] at hsome; simp at hsome
    | some nd =>
      rw [hnd] at hstep hhd hlast
      dsimp only at hstep
      simp only [Option.getD_some] at hhd hlast
      cases hmc : mapExcept (resolveCoord G) nd with
      | error er => rw [hmc] at hstep; exact absurd hstep (by simp)
      | ok coords =>
        rw [hmc] at hstep
        dsimp only at hstep
        by_cases hlen : coords.length < 2
        · rw [if_pos hlen] at hstep; exact absurd hstep (by simp)
        · rw [if_neg hlen] at hstep
          simp only [Except.ok.injEq] at hstep
          have hfc := mapExcept_ok_forall₂ (resolveCoord G) nd coords hmc
          obtain ⟨cu, hcu, hru⟩ := forall₂_head? hfc hhd
          obtain ⟨cv, hcv, hrv⟩ := forall₂_getLast? hfc hlast
          refine ⟨coords, cu, cv, ?_, ?_, hcu, ?_, hcv⟩
          · rw [← hstep]
          · rw [← hstep, hco]
            exact (resolveCoord_ok_iff G e0.u cu).mp hru
          · rw [← hstep, hco]
            exact (resolveCoord_ok_iff G e0.v cv).mp hrv

def okG : Graph :=
  { nodesL := [(1, some (0, 0)), (2, some (1, 1))]
    edges := [⟨1, 2, 0,
      { osm_id := 9, segment := 0, ndref := some [1, 2]
        geometry := none, length := none, tags := [] }⟩] }

def okG2 : Graph := match construct_geometries geod0 okG with | .ok g => g | .error _ => emptyG

theorem c4_geometry_endpoints_w :
    (∀ e ∈ okG.edges, e.data.ndref.isSome ∧
      (e.data.ndref.getD []).head? = some e.u ∧ (e.data.ndref.getD []).getLast? = some e.v) ∧
    construct_geometries geod0 okG = .ok okG2 ∧
    (∀ e ∈ okG2.edges, ∃ g cu cv, e.data.geometry = some g ∧
      coordOf okG2 e.u = some cu ∧ g.head? = some cu ∧
      coordOf okG2 e.v = some cv ∧ g.getLast? = some cv) :=
  ⟨by decide, by decide, c4_geometry_endpoints geod0 okG okG2 (by decide) (by decide)⟩

theorem resolveCoord_classify (G : Graph) (r : Int) :
    (∃ c, resolveCoord G r = .ok c) ∨
      (resolveCoord G r = .error (.keyError r) ∨ resolveCoord G r = .error (.keyErrorLonLat r)) := by
  unfold resolveCoord
  cases nodeCoord G r with
  | none => exact .inr (.inl rfl)
  | some o =>
    cases o with
    | none => exact .inr (.inr rfl)
    | some c => exact .inl ⟨c, rfl⟩

theorem resolveCoord_error_of_none (G : Graph) (r : Int) (h : coordOf G r = none) :
    resolveCoord G r = .error (.keyError r) ∨ resolveCoord G r = .error (.keyErrorLonLat r) := by
  unfold coordOf at h
  unfold resolveCoord
  cases hn : nodeCoord G r with
  | none => exact .inl rfl
  | some o =>
    cases o with
    | none => exact .inr rfl
    | some c => rw [hn] at h; simp at h

/-- Shorthand for "the error is one of the two KeyError shapes raised
by coordinate resolution". -/
def isKeyErr (er : PyExc) : Prop := ∃ r, er = .keyError r ∨ er = .keyErrorLonLat r

theorem edgeGeomStep_classify (geod : List Coord → Rat) (G : Graph) (e : Edge)
    (hsome : e.data.ndref.isSome) (hlen : 2 ≤ (e.data.ndref.getD []).length) :
    (∃ b, edgeGeomStep geod G e = .ok b) ∨
      ∃ er, edgeGeomStep geod G e = .error er ∧ isKeyErr er := by
  cases hndv : e.data.ndref with
  | none => rw [hndv] at hsome; simp at hsome
  | some nd =>
    rw [hndv, Option.getD_some] at hlen
    have hcls : ∀ r ∈ nd, (∃ c, resolveCoord G r = .ok c) ∨
        ∃ er, resolveCoord G r = .error er ∧ isKeyErr er := by
      intro r _
      rcases resolveCoord_classify G r with h | h | h
      · exact .inl h
      · exact .inr ⟨_, h, ⟨r, .inl rfl⟩⟩
      · exact .inr ⟨_, h, ⟨r, .inr rfl⟩⟩
    rcases mapExcept_classify (resolveCoord G) isKeyErr nd hcls with ⟨coords, hc⟩ | ⟨er, her, hP⟩
    · left
      have hleq := (mapExcept_ok_forall₂ (resolveCoord G) nd coords hc).length_eq
      refine ⟨{ e with data :=
        { e.data with
          ndref := none
          geometry := some coords
          length := some (roundTenth (geod coords)) } }, ?_⟩
      unfold edgeGeomStep
      rw [hndv]
      dsimp only
      rw [hc]
      dsimp only
      rw [if_neg (by omega)]
    · right
      refine ⟨er, ?_, hP⟩
      unfold edgeGeomStep
      rw [hndv]
      dsimp only
      rw [her]

/-- C5 (amended).  When some edge's chain holds a reference that does
not resolve to registered coordinates, `construct_geometries` fails
with the Python `KeyError` of the dictionary lookup (there is no
`GeometryError` class in the source); when every reference resolves,
it succeeds. -/
theorem c5_unresolved_ref_error (geod : List Coord → Rat) (G : Graph)
    (hnd : ∀ e ∈ G.edges, e.data.ndref.isSome ∧ 2 ≤ (e.data.ndref.getD []).length) :
    ((∃ e ∈ G.edges, ∃ r ∈ e.data.ndref.getD [], coordOf G r = none) →
       ∃ r, construct_geometries geod G = .error (.keyError r) ∨
         construct_geometries geod G = .error (.keyErrorLonLat r)) ∧
    ((∀ e ∈ G.edges, ∀ r ∈ e.data.ndref.getD [], (coordOf G r).isSome) →
       ∃ GC, construct_geometries geod G = .ok GC) := by
  constructor
  · intro hbad
    obtain ⟨e, he, r, hr, hnone⟩ := hbad
    have hcls := fun e2 he2 => edgeGeomStep_classify geod G e2 (hnd e2 he2).1 (hnd e2 he2).2
    rcases mapExcept_classify (edgeGeomStep geod G) isKeyErr G.edges hcls with ⟨ys, hys⟩ | ⟨er, her, hP⟩
    · exfalso
      obtain ⟨hsome, _⟩ := hnd e he
      cases hndv : e.data.ndref with
      | none => rw [hndv] at hsome; simp at hsome
      | some nd =>
        rw [hndv, Option.getD_some] at hr
        have hstep : ∃ er2, edgeGeomStep geod G e = .error er2 := by
          rcases resolveCoord_error_of_none G r hnone with h0 | h0
          all_goals {
            cases hmc : mapExcept (resolveCoord G) nd with
            | error er1 =>
              refine ⟨er1, ?_⟩
              unfold edgeGeomStep
              rw [hndv]
              dsimp only
              rw [hmc]
            | ok coords => exact absurd hmc (mapExcept_ne_ok (resolveCoord G) nd r hr _ h0 coords)
          }
        obtain ⟨er2, her2⟩ := hstep
        exact mapExcept_ne_ok (edgeGeomStep geod G) G.edges e he er2 her2 ys hys
    · obtain ⟨r0, hr0⟩ := hP
      refine ⟨r0, ?_⟩
      unfold construct_geometries
      rw [her]
      rcases hr0 with rfl | rfl
      · exact .inl rfl
      · exact .inr rfl
  · intro hall
    have hok : ∀ e ∈ G.edges, ∃ b, edgeGeomStep geod G e = .ok b := by
      intro e he
      obtain ⟨hsome, hlen⟩ := hnd e he
      cases hndv : e.data.ndref with
      | none => rw [hndv] at hsome; simp at hsome
      | some nd =>
        rw [hndv, Option.getD_some] at hlen
        have hres : ∀ r ∈ nd, ∃ c, resolveCoord G r = .ok c := by
          intro r hr
          have h1 := hall e he r (by rw [hndv, Option.getD_some]; exact hr)
          obtain ⟨c, hc⟩ := Option.isSome_iff_exists.mp h1
          exact ⟨c, (resolveCoord_ok_iff G r c).mpr hc⟩
        obtain ⟨coords, hc⟩ := mapExcept_ok_of_forall (resolveCoord G) nd hres
        have hleq := (mapExcept_ok_forall₂ (resolveCoord G) nd coords hc).length_eq
        refine ⟨{ e with data :=
          { e.data with
            ndref := none
            geometry := some coords
            length := some (roundTenth (geod coords)) } }, ?_⟩
        unfold edgeGeomStep
        rw [hndv]
        dsimp only
        rw [hc]
        dsimp only
        rw [if_neg (by omega)]
    obtain ⟨es, hes⟩ := mapExcept_ok_of_forall (edgeGeomStep geod G) G.edges hok
    refine ⟨{ G with edges := es }, ?_⟩
    unfold construct_geometries
    rw [hes]

theorem c5_unresolved_ref_error_w :
    (∀ e ∈ badG.edges, e.data.ndref.isSome ∧ 2 ≤ (e.data.ndref.getD []).length) ∧
    (((∃ e ∈ badG.edges, ∃ r ∈ e.data.ndref.getD [], coordOf badG r = none) →
       ∃ r, construct_geometries geod0 badG = .error (.keyError r) ∨
         construct_geometries geod0 badG = .error (.keyErrorLonLat r)) ∧
     ((∀ e ∈ badG.edges, ∀ r ∈ e.data.ndref.getD [], (coordOf badG r).isSome) →
       ∃ GC, construct_geometries geod0 badG = .ok GC)) :=
  ⟨by decide, c5_unresolved_ref_error geod0 badG (by decide)⟩

theorem foldlM_opt_inv {sigma alpha : Type} (P : sigma → Prop) (f : sigma → alpha → Option sigma) :
    ∀ (l : List alpha) (s s' : sigma),
      (∀ x ∈ l, ∀ t t', P t → f t x = some t' → P t') →
      P s → l.foldlM f s = some s' → P s' := by
  intro l
  induction l with
  | nil =>
    intro s s' _ hP h
    rw [List.foldlM_nil] at h
    simp only [pure, Option.some.injEq] at h
    subst h
    exact hP
  | cons x xs ih =>
    intro s s' hstep hP h
    rw [List.foldlM_cons] at h
    cases hfx : f s x with
    | none => rw [hfx] at h; simp at h
    | some t =>
      rw [hfx] at h
      simp only [Option.bind_eq_bind, Option.some_bind] at h
      exact ih t s' (fun y hy => hstep y (by simp [hy])) (hstep x (by simp) s t hP hfx) h

theorem removeEdgeLast_nodesL (g g' : Graph) (a f : Int) (h : removeEdgeLast g a f = some g') :
    g'.nodesL = g.nodesL := by
  unfold removeEdgeLast at h
  split at h
  · simp at h
  · simp only [Option.some.injEq] at h; rw [← h]

theorem removeEdgeLast_edges_subset (g g' : Graph) (a f : Int) (h : removeEdgeLast g a f = some g') :
    ∀ e ∈ g'.edges, e ∈ g.edges := by
  unfold removeEdgeLast at h
  split at h
  · simp at h
  · simp only [Option.some.injEq] at h
    rw [← h]
    intro e he
    simp only [List.mem_reverse] at he
    have := List.mem_of_mem_eraseP he
    simpa using this

theorem updateEdgeData_nodesL (g : Graph) (u v : Int) (k : Nat) (d : EdgeAttrs) :
    (updateEdgeData g u v k d).nodesL = g.nodesL := rfl

theorem updateEdgeData_edges_endpoints (g : Graph) (u v : Int) (k : Nat) (d : EdgeAttrs) :
    ∀ e2 ∈ (updateEdgeData g u v k d).edges, ∃ e ∈ g.edges, e2.u = e.u ∧ e2.v = e.v := by
  intro e2 he2
  obtain ⟨e, he, heq⟩ := List.mem_map.mp he2
  refine ⟨e, he, ?_⟩
  by_cases hc : e.u = u ∧ e.v = v ∧ e.key = k
  · rw [if_pos hc] at heq; rw [← heq]; exact ⟨rfl, rfl⟩
  · rw [if_neg hc] at heq; rw [← heq]; exact ⟨rfl, rfl⟩

theorem addEdge_nodesL_of_mem (g : Graph) (u v : Int) (d : EdgeAttrs)
    (hu : u ∈ nodeKeys g) (hv : v ∈ nodeKeys g) : (addEdge g u v d).nodesL = g.nodesL := by
  show (ensureNode (ensureNode g u) v).nodesL = g.nodesL
  rw [ensureNode_of_mem g u hu, ensureNode_of_mem g v hv]

theorem nodeKeys_eq_of_nodesL_eq (g g' : Graph) (h : g'.nodesL = g.nodesL) :
    nodeKeys g' = nodeKeys g := by unfold nodeKeys; rw [h]

theorem dictSet_forall {kappa nu : Type} [DecidableEq kappa] (d : List (kappa × nu)) (k : kappa)
    (x : nu) (C : kappa → Prop) (V : nu → Prop)
    (hd : ∀ q ∈ d, C q.1 ∧ V q.2) (hkC : C k) (hxV : V x) :
    ∀ p ∈ dictSet d k x, C p.1 ∧ V p.2 := by
  intro p hp
  unfold dictSet at hp
  split at hp
  · obtain ⟨q, hq, hqe⟩ := List.mem_map.mp hp
    by_cases hqk : q.1 = k
    · rw [if_pos hqk] at hqe
      rw [← hqe]
      exact ⟨(hd q hq).1, hxV⟩
    · rw [if_neg hqk] at hqe
      rw [← hqe]
      exact hd q hq
  · rcases List.mem_append.mp hp with h | h
    · exact hd p h
    · simp only [List.mem_singleton] at h
      rw [h]
      exact ⟨hkC, hxV⟩

theorem dictAppend_forall {kappa nu : Type} [DecidableEq kappa] (d : List (kappa × List nu))
    (k : kappa) (x : nu) (C : kappa → Prop) (N : nu → Prop)
    (hd : ∀ q ∈ d, C q.1 ∧ ∀ y ∈ q.2, N y) (hkC : C k) (hxN : N x) :
    ∀ p ∈ dictAppend d k x, C p.1 ∧ ∀ y ∈ p.2, N y := by
  intro p hp
  unfold dictAppend at hp
  split at hp
  · obtain ⟨q, hq, hqe⟩ := List.mem_map.mp hp
    by_cases hqk : q.1 = k
    · rw [if_pos hqk] at hqe
      rw [← hqe]
      refine ⟨(hd q hq).1, ?_⟩
      intro y hy
      rcases List.mem_append.mp hy with h2 | h2
      · exact (hd q hq).2 y h2
      · simp only [List.mem_singleton] at h2; rw [h2]; exact hxN
    · rw [if_neg hqk] at hqe
      rw [← hqe]
      exact hd q hq
  · rcases List.mem_append.mp hp with h | h
    · exact hd p h
    · simp only [List.mem_singleton] at h
      rw [h]
      refine ⟨hkC, ?_⟩
      intro y hy
      simp only [List.mem_singleton] at hy
      rw [hy]
      exact hxN

theorem mem_insertCand (c : Cand) (l : List Cand) (a : Cand) :
    a ∈ insertCand c l ↔ a = c ∨ a ∈ l := by
  induction l with
  | nil => simp [insertCand]
  | cons x xs ih =>
    unfold insertCand
    split
    · simp only [List.mem_cons, ih]
      tauto
    · simp only [List.mem_cons]

theorem mem_sortCands (l : List Cand) (a : Cand) : a ∈ sortCands l ↔ a ∈ l := by
  induction l with
  | nil => simp [sortCands]
  | cons c cs ih =>
    unfold sortCands
    rw [mem_insertCand, ih, List.mem_cons]

theorem buildGroupsAux_inv (C : Int × Int → Prop) (N : Int → Prop) :
    ∀ (cs : List Cand) (acc : List ((Int × Int) × List Int)) (lastS : Int)
      (recv : Option (Int × Int)) (grps : List ((Int × Int) × List Int)),
      (∀ c ∈ cs, C (c.nin, c.n) ∧ N c.n) →
      (∀ p ∈ acc, C p.1 ∧ ∀ n ∈ p.2, N n) →
      (∀ r, recv = some r → C r) →
      buildGroupsAux acc lastS recv cs = some grps →
      ∀ p ∈ grps, C p.1 ∧ ∀ n ∈ p.2, N n := by
  intro cs
  induction cs with
  | nil =>
    intro acc lastS recv grps _ hacc _ h
    unfold buildGroupsAux at h
    simp only [Option.some.injEq] at h
    rw [← h]
    exact hacc
  | cons c rest ih =>
    intro acc lastS recv grps hcs hacc hrecv h
    unfold buildGroupsAux at h
    split at h
    · refine ih _ _ _ grps (fun c2 hc2 => hcs c2 (by simp [hc2])) ?_ ?_ h
      · exact dictAppend_forall _ _ _ C N
          (dictSet_forall acc (c.nin, c.n) [] C (fun l2 => ∀ n ∈ l2, N n) hacc
            (hcs c (by simp)).1 (by intro y hy; simp at hy))
          (hcs c (by simp)).1 (hcs c (by simp)).2
      · intro r hr
        simp only [Option.some.injEq] at hr
        rw [← hr]
        exact (hcs c (by simp)).1
    · cases hrv : recv with
      | none => rw [hrv] at h; simp at h
      | some r =>
        rw [hrv] at h
        refine ih _ _ _ grps (fun c2 hc2 => hcs c2 (by simp [hc2])) ?_ ?_ h
        · exact dictAppend_forall _ _ _ C N hacc (hrecv r hrv) (hcs c (by simp)).2
        · intro r2 hr2
          simp only [Option.some.injEq] at hr2
          rw [← hr2]
          exact hrecv r hrv

theorem edgeUV0_mem (G : Graph) (u v : Int) (d : EdgeAttrs) (h : edgeUV0 G u v = some d) :
    ∃ e ∈ G.edges, e.u = u ∧ e.v = v ∧ e.data = d := by
  unfold edgeUV0 at h
  obtain ⟨e, hfind, hdata⟩ := Option.map_eq_some'.mp h
  have hm := List.mem_of_find?_eq_some hfind
  have hp := List.find?_some hfind
  have hp2 := of_decide_eq_true hp
  exact ⟨e, hm, hp2.1, hp2.2.1, hdata⟩

theorem closed_removeEdgeLast (g g' : Graph) (a f : Int) (h : removeEdgeLast g a f = some g')
    (hc : closedGraph g) : closedGraph g' := by
  intro e he
  rw [nodeKeys_eq_of_nodesL_eq g g' (removeEdgeLast_nodesL g g' a f h)]
  exact hc e (removeEdgeLast_edges_subset g g' a f h e he)

theorem closed_updateEdgeData (g : Graph) (u v : Int) (k : Nat) (d : EdgeAttrs)
    (hc : closedGraph g) : closedGraph (updateEdgeData g u v k d) := by
  intro e2 he2
  obtain ⟨e, he, hu2, hv2⟩ := updateEdgeData_edges_endpoints g u v k d e2 he2
  have hk : nodeKeys (updateEdgeData g u v k d) = nodeKeys g := rfl
  rw [hk, hu2, hv2]
  exact hc e he

theorem closed_addEdge (g : Graph) (u v : Int) (d : EdgeAttrs) (hc : closedGraph g)
    (hu : u ∈ nodeKeys g) (hv : v ∈ nodeKeys g) : closedGraph (addEdge g u v d) := by
  obtain ⟨k, hk⟩ := addEdge_edges_exists g u v d
  have hkeys : nodeKeys (addEdge g u v d) = nodeKeys g :=
    nodeKeys_eq_of_nodesL_eq _ _ (addEdge_nodesL_of_mem g u v d hu hv)
  intro e he
  rw [hk] at he
  rw [hkeys]
  rcases List.mem_append.mp he with h2 | h2
  · exact hc e h2
  · simp only [List.mem_singleton] at h2
    rw [h2]
    exact ⟨hu, hv⟩

/-- What the first pass of `simplify` guarantees about every collected
candidate tuple. -/
def candSpec (G : Graph) (c : Cand) : Prop :=
  predecessorsOrd G c.n = [c.nin] ∧ successorsOrd G c.n = [c.nout] ∧
  ∃ din dout, edgeUV0 G c.nin c.n = some din ∧ edgeUV0 G c.n c.nout = some dout ∧
    din.osm_id = dout.osm_id ∧ din.segment = c.seg ∧ c.n ∈ nodeKeys G

theorem phase1Step_spec (G : Graph) (x : Int) (hx : x ∈ nodeKeys G)
    (t t' : List (Int × List Cand))
    (hP : ∀ wd ∈ t, ∀ c ∈ wd.2, candSpec G c)
    (h : phase1Step G t x = some t') :
    ∀ wd ∈ t', ∀ c ∈ wd.2, candSpec G c := by
  unfold phase1Step at h
  cases hpred : predecessorsOrd G x with
  | nil =>
    rw [hpred] at h; dsimp only at h
    simp only [Option.some.injEq] at h; rw [← h]; exact hP
  | cons p ps =>
    cases ps with
    | cons q qs =>
      rw [hpred] at h; dsimp only at h
      simp only [Option.some.injEq] at h; rw [← h]; exact hP
    | nil =>
      cases hsucc : successorsOrd G x with
      | nil =>
        rw [hpred, hsucc] at h; dsimp only at h
        simp only [Option.some.injEq] at h; rw [← h]; exact hP
      | cons s ss =>
        cases ss with
        | cons q2 qs2 =>
          rw [hpred, hsucc] at h; dsimp only at h
          simp only [Option.some.injEq] at h; rw [← h]; exact hP
        | nil =>
          rw [hpred, hsucc] at h
          dsimp only at h
          cases hin : edgeUV0 G p x with
          | none => rw [hin] at h; dsimp only at h; exact absurd h (by simp)
          | some din =>
            cases hout : edgeUV0 G x s with
            | none => rw [hin, hout] at h; dsimp only at h; exact absurd h (by simp)
            | some dout =>
              rw [hin, hout] at h
              dsimp only at h
              by_cases hne : din.osm_id ≠ dout.osm_id
              · rw [if_pos hne] at h
                simp only [Option.some.injEq] at h; rw [← h]; exact hP
              · rw [if_neg hne] at h
                simp only [Option.some.injEq] at h; rw [← h]
                push_neg at hne
                intro wd hwd
                exact (dictAppend_forall t din.osm_id ⟨p, x, s, din.segment⟩
                  (fun _ => True) (candSpec G)
                  (fun q hq => ⟨trivial, hP q hq⟩) trivial
                  ⟨hpred, hsucc, din, dout, hin, hout, hne, rfl, hx⟩ wd hwd).2

theorem phase1_spec (G : Graph) (rn : List (Int × List Cand)) (h : phase1 G = some rn) :
    ∀ wd ∈ rn, ∀ c ∈ wd.2, candSpec G c := by
  exact foldlM_opt_inv (fun acc => ∀ wd ∈ acc, ∀ c ∈ wd.2, candSpec G c) (phase1Step G)
    (nodeKeys G) [] rn
    (fun x hx t t' hP hs => phase1Step_spec G x hx t t' hP hs)
    (by simp) h

theorem processGroup_frame (G0 g g' : Graph) (u v : Int) (nds : List Int)
    (hg : g.nodesL = G0.nodesL ∧ closedGraph g)
    (hu : u ∈ nodeKeys G0) (hnds : ∀ n ∈ nds, n ∈ nodeKeys G0)
    (h : processGroup g u v nds = some g') :
    g'.nodesL = G0.nodesL ∧ closedGraph g' := by
  unfold processGroup at h
  cases hd0 : edgeUV0 g u v with
  | none => rw [hd0] at h; simp at h
  | some d0 =>
    rw [hd0] at h
    simp only [Option.bind_eq_bind, Option.some_bind] at h
    cases hnd : d0.ndref with
    | none => rw [hnd] at h; simp at h
    | some nd0 =>
      rw [hnd] at h
      simp only [Option.some_bind] at h
      obtain ⟨st, hst, h2⟩ := Option.bind_eq_some.mp h
      have hinv : st.1.nodesL = G0.nodesL ∧ closedGraph st.1 := by
        refine foldlM_opt_inv (fun st2 => st2.1.nodesL = G0.nodesL ∧ closedGraph st2.1) _
          nds (g, []) st ?_ hg hst
        intro x hxm t2 t2' hPt hstep2
        simp only [Option.bind_eq_bind] at hstep2
        obtain ⟨f, _, hstep3⟩ := Option.bind_eq_some.mp hstep2
        obtain ⟨g2, hg2, hpure⟩ := Option.bind_eq_some.mp hstep3
        simp only [Option.some.injEq] at hpure
        rw [← hpure]
        exact ⟨(removeEdgeLast_nodesL t2.1 g2 x f hg2).trans hPt.1,
          closed_removeEdgeLast t2.1 g2 x f hg2 hPt.2⟩
      obtain ⟨lastN, hlastN, hfin⟩ := Option.bind_eq_some.mp h2
      simp only [Option.some.injEq] at hfin
      rw [← hfin]
      have hkeys : nodeKeys st.1 = nodeKeys G0 := nodeKeys_eq_of_nodesL_eq _ _ hinv.1
      have hu2 : u ∈ nodeKeys st.1 := by rw [hkeys]; exact hu
      have hl2 : lastN ∈ nodeKeys st.1 := by
        rw [hkeys]
        exact hnds lastN (List.mem_of_getLast?_eq_some hlastN)
      constructor
      · rw [addEdge_nodesL_of_mem (updateEdgeData st.1 u v 0 _) u lastN _ hu2 hl2]
        exact hinv.1
      · exact closed_addEdge _ _ _ _ (closed_updateEdgeData st.1 u v 0 _ hinv.2) hu2 hl2

/-- Node provenance of the groups processed by `simplify`'s second
pass: every group key is some candidate's `(node_in, node)` pair and
every group member is some candidate's node. -/
theorem buildGroups_spec (cs : List Cand) (grps : List ((Int × Int) × List Int))
    (h : buildGroups cs = some grps) :
    ∀ p ∈ grps, (∃ c ∈ cs, p.1 = (c.nin, c.n)) ∧ ∀ n ∈ p.2, ∃ c ∈ cs, n = c.n := by
  exact buildGroupsAux_inv (fun r => ∃ c ∈ cs, r = (c.nin, c.n)) (fun n => ∃ c ∈ cs, n = c.n)
    cs [] (-10) none grps
    (fun c hc => ⟨⟨c, hc, rfl⟩, ⟨c, hc, rfl⟩⟩)
    (by simp) (by simp) h

/-- Frame property of `simplify`: a completed run never adds, removes
or modifies node-registry entries. -/
theorem simplify_frame (G G' : Graph) (hCl : closedGraph G) (h : simplify G = some G') :
    G'.nodesL = G.nodesL ∧ closedGraph G' := by
  unfold simplify at h
  cases hp : phase1 G with
  | none => rw [hp] at h; simp at h
  | some rn =>
    rw [hp] at h
    simp only [Option.bind_eq_bind, Option.some_bind] at h
    have hspec := phase1_spec G rn hp
    refine foldlM_opt_inv (fun g => g.nodesL = G.nodesL ∧ closedGraph g) _ rn G G' ?_ ⟨rfl, hCl⟩ h
    intro wd hwd g g' hP hstep
    simp only [Option.bind_eq_bind] at hstep
    obtain ⟨grps, hbg, hfold⟩ := Option.bind_eq_some.mp hstep
    have hgs := buildGroups_spec (sortCands wd.2) grps hbg
    refine foldlM_opt_inv (fun g2 => g2.nodesL = G.nodesL ∧ closedGraph g2) _ grps g g' ?_ hP hfold
    intro gr hgr t t' hPt hpg
    obtain ⟨⟨c, hcmem, hkey⟩, hmems⟩ := hgs gr hgr
    have hc2 : c ∈ wd.2 := (mem_sortCands wd.2 c).mp hcmem
    have hcs := hspec wd hwd c hc2
    obtain ⟨hpred, hsucc, din, dout, hin, hout, _, _, hnk⟩ := hcs
    have hninK : c.nin ∈ nodeKeys G := by
      obtain ⟨e, he, heu, _, _⟩ := edgeUV0_mem G c.nin c.n din hin
      rw [← heu]
      exact (hCl e he).1
    refine processGroup_frame G t t' gr.1.1 gr.1.2 gr.2 hPt ?_ ?_ hpg
    · rw [hkey]; exact hninK
    · intro n hn
      obtain ⟨c2, hc2m, hc2e⟩ := hmems n hn
      obtain ⟨_, _, _, _, _, _, _, _, hnk2⟩ := hspec wd hwd c2 ((mem_sortCands wd.2 c2).mp hc2m)
      rw [hc2e]
      exact hnk2

/-- C9.  A completed `simplify` run leaves the node registry exactly as
it found it: no node is removed and no node's `lon`/`lat` attributes
change; only edges are deleted and added. -/
theorem c9_simplify_preserves_nodes (G G' : Graph) (hCl : closedGraph G)
    (h : simplify G = some G') : G'.nodesL = G.nodesL :=
  (simplify_frame G G' hCl h).1

theorem c9_simplify_preserves_nodes_w :
    closedGraph sG0 ∧ sG1.nodesL = sG0.nodesL :=
  ⟨by decide, c9_simplify_preserves_nodes sG0 sG1 (by decide) (by decide)⟩

theorem length_filter_eraseP_of_incompat {alpha : Type} (p q : alpha → Bool) (l : List alpha)
    (h : ∀ e, p e = true → q e = false) :
    (List.filter q (l.eraseP p)).length = (List.filter q l).length := by
  by_cases hex : ∃ e ∈ l, p e = true
  · obtain ⟨e0, he0, hpe⟩ := hex
    obtain ⟨a2, l1, l2, _, hpa, hl, herase⟩ := List.exists_of_eraseP he0 hpe
    rw [herase, hl]
    simp [List.filter_append, List.filter_cons, h a2 hpa]
  · push_neg at hex
    rw [List.eraseP_of_forall_not (by intro a ha; simp [hex a ha])]

theorem removeEdgeLast_countUV_of_ne (g g' : Graph) (a f b : Int) (hne : a ≠ b)
    (h : removeEdgeLast g a f = some g') : ∀ t, countUV g' b t = countUV g b t := by
  intro t
  unfold removeEdgeLast at h
  split at h
  · simp at h
  · simp only [Option.some.injEq] at h
    rw [← h]
    unfold countUV parallelEdges
    show (List.filter _ (g.edges.reverse.eraseP _).reverse).length = _
    rw [List.filter_reverse, List.length_reverse]
    rw [length_filter_eraseP_of_incompat _ _ _ ?incompat]
    · rw [List.filter_reverse, List.length_reverse]
    case incompat =>
      intro e hpe
      have h2 := of_decide_eq_true hpe
      refine decide_eq_false ?_
      intro hq
      exact hne (h2.1 ▸ hq.1.symm ▸ rfl)

theorem updateEdgeData_countUV (g : Graph) (u v : Int) (k : Nat) (d : EdgeAttrs) (b t : Int) :
    countUV (updateEdgeData g u v k d) b t = countUV g b t := by
  unfold countUV parallelEdges updateEdgeData
  rw [List.filter_map]
  rw [List.length_map]
  congr 1
  apply List.filter_congr
  intro e _
  by_cases hc : e.u = u ∧ e.v = v ∧ e.key = k
  · simp only [Function.comp, if_pos hc]
  · simp only [Function.comp, if_neg hc]

theorem addEdge_countUV_le (g : Graph) (u v : Int) (d : EdgeAttrs) (b t : Int) :
    countUV g b t ≤ countUV (addEdge g u v d) b t := by
  obtain ⟨k, hk⟩ := addEdge_edges_exists g u v d
  unfold countUV parallelEdges
  rw [hk, List.filter_append, List.length_append]
  omega

theorem processGroup_countUV_mono (g g' : Graph) (u v b : Int) (nds : List Int)
    (hnb : ∀ n ∈ nds, n ≠ b) (h : processGroup g u v nds = some g') :
    ∀ t, countUV g b t ≤ countUV g' b t := by
  intro t
  unfold processGroup at h
  cases hd0 : edgeUV0 g u v with
  | none => rw [hd0] at h; simp at h
  | some d0 =>
    rw [hd0] at h
    simp only [Option.bind_eq_bind, Option.some_bind] at h
    cases hnd : d0.ndref with
    | none => rw [hnd] at h; simp at h
    | some nd0 =>
      rw [hnd] at h
      simp only [Option.some_bind] at h
      obtain ⟨st, hst, h2⟩ := Option.bind_eq_some.mp h
      have hinv : countUV g b t ≤ countUV st.1 b t := by
        refine foldlM_opt_inv (fun st2 => countUV g b t ≤ countUV st2.1 b t) _
          nds (g, []) st ?_ (le_refl _) hst
        intro x hxm t2 t2' hPt hstep2
        simp only [Option.bind_eq_bind] at hstep2
        obtain ⟨f, _, hstep3⟩ := Option.bind_eq_some.mp hstep2
        obtain ⟨g2, hg2, hpure⟩ := Option.bind_eq_some.mp hstep3
        simp only [Option.some.injEq] at hpure
        rw [← hpure]
        show countUV g b t ≤ countUV g2 b t
        rw [removeEdgeLast_countUV_of_ne t2.1 g2 x f b (hnb x hxm) hg2 t]
        exact hPt
      obtain ⟨lastN, _, hfin⟩ := Option.bind_eq_some.mp h2
      simp only [Option.some.injEq] at hfin
      rw [← hfin]
      calc countUV g b t ≤ countUV st.1 b t := hinv
        _ = countUV (updateEdgeData st.1 u v 0 _) b t := (updateEdgeData_countUV st.1 u v 0 _ b t).symm
        _ ≤ _ := addEdge_countUV_le _ u lastN _ b t

/-- The nodes simplify's first pass classified as pass-through
candidates, over all ways. -/
def candNodes (rn : List (Int × List Cand)) : List Int :=
  rn.flatMap (fun wd => wd.2.map Cand.n)

theorem mem_candNodes (rn : List (Int × List Cand)) (n : Int) :
    n ∈ candNodes rn ↔ ∃ wd ∈ rn, ∃ c ∈ wd.2, c.n = n := by
  unfold candNodes
  rw [List.mem_flatMap]
  constructor
  · rintro ⟨wd, hwd, hmem⟩
    obtain ⟨c, hc, hcn⟩ := List.mem_map.mp hmem
    exact ⟨wd, hwd, c, hc, hcn⟩
  · rintro ⟨wd, hwd, c, hc, hcn⟩
    exact ⟨wd, hwd, List.mem_map.mpr ⟨c, hc, hcn⟩⟩

theorem simplify_countUV_mono (G G' : Graph) (b : Int) (rn : List (Int × List Cand))
    (hp : phase1 G = some rn) (hb : b ∉ candNodes rn) (h : simplify G = some G') :
    ∀ t, countUV G b t ≤ countUV G' b t := by
  intro t
  unfold simplify at h
  rw [hp] at h
  simp only [Option.bind_eq_bind, Option.some_bind] at h
  refine foldlM_opt_inv (fun g2 => countUV G b t ≤ countUV g2 b t) _ rn G G' ?_ (le_refl _) h
  intro wd hwd g g' hP hstep
  simp only [Option.bind_eq_bind] at hstep
  obtain ⟨grps, hbg, hfold⟩ := Option.bind_eq_some.mp hstep
  have hgs := buildGroups_spec (sortCands wd.2) grps hbg
  refine foldlM_opt_inv (fun g2 => countUV G b t ≤ countUV g2 b t) _ grps g g' ?_ hP hfold
  intro gr hgr t2 t2' hPt hpg
  have hnb : ∀ n ∈ gr.2, n ≠ b := by
    intro n hn hnb2
    obtain ⟨c2, hc2m, hc2e⟩ := (hgs gr hgr).2 n hn
    exact hb ((mem_candNodes rn b).mpr
      ⟨wd, hwd, c2, (mem_sortCands wd.2 c2).mp hc2m, by rw [← hc2e, hnb2]⟩)
  exact le_trans hPt (processGroup_countUV_mono t2 t2' gr.1.1 gr.1.2 b gr.2 hnb hpg t)

/-- C7.  A node whose single incoming and single outgoing (key-0) edges
belong to different ways is never classified as a pass-through
candidate (and only nodes with exactly one predecessor, one successor
and matching `osm_id`s are), so a completed `simplify` keeps the node
registered and never removes any of its outgoing edges — its two
incident edges are never merged. -/
theorem c7_branch_point_not_collapsed (G G' : Graph) (b p s : Int) (din dout : EdgeAttrs)
    (hCl : closedGraph G)
    (hpred : predecessorsOrd G b = [p]) (hsucc : successorsOrd G b = [s])
    (hin : edgeUV0 G p b = some din) (hout : edgeUV0 G b s = some dout)
    (hne : din.osm_id ≠ dout.osm_id)
    (hsimp : simplify G = some G') :
    (∀ rn, phase1 G = some rn →
      b ∉ candNodes rn ∧
      ∀ n ∈ candNodes rn, ∃ q t2 d1 d2, predecessorsOrd G n = [q] ∧ successorsOrd G n = [t2] ∧
        edgeUV0 G q n = some d1 ∧ edgeUV0 G n t2 = some d2 ∧ d1.osm_id = d2.osm_id) ∧
    b ∈ nodeKeys G' ∧
    (∀ t, countUV G b t ≤ countUV G' b t) := by
  have hmain : ∀ rn, phase1 G = some rn →
      b ∉ candNodes rn ∧
      ∀ n ∈ candNodes rn, ∃ q t2 d1 d2, predecessorsOrd G n = [q] ∧ successorsOrd G n = [t2] ∧
        edgeUV0 G q n = some d1 ∧ edgeUV0 G n t2 = some d2 ∧ d1.osm_id = d2.osm_id := by
    intro rn hrn
    have hcs := phase1_spec G rn hrn
    have hclass : ∀ n ∈ candNodes rn, ∃ q t2 d1 d2, predecessorsOrd G n = [q] ∧
        successorsOrd G n = [t2] ∧ edgeUV0 G q n = some d1 ∧ edgeUV0 G n t2 = some d2 ∧
        d1.osm_id = d2.osm_id := by
      intro n hn
      obtain ⟨wd, hwd, c, hc, hcn⟩ := (mem_candNodes rn n).mp hn
      obtain ⟨h1, h2, d1, d2, h3, h4, h5, _, _⟩ := hcs wd hwd c hc
      rw [hcn] at h1 h2 h3 h4
      exact ⟨c.nin, c.nout, d1, d2, h1, h2, h3, h4, h5⟩
    refine ⟨?_, hclass⟩
    intro hbmem
    obtain ⟨q, t2, d1, d2, h1, h2, h3, h4, h5⟩ := hclass b hbmem
    rw [hpred] at h1
    rw [hsucc] at h2
    simp only [List.cons.injEq, and_true] at h1 h2
    rw [← h1] at h3
    rw [← h2] at h4
    rw [hin] at h3
    rw [hout] at h4
    simp only [Option.some.injEq] at h3 h4
    rw [← h3, ← h4] at h5
    exact hne h5
  refine ⟨hmain, ?_, ?_⟩
  · have hbK : b ∈ nodeKeys G := by
      obtain ⟨e, he, _, hev, _⟩ := edgeUV0_mem G p b din hin
      rw [← hev]
      exact (hCl e he).2
    rw [nodeKeys_eq_of_nodesL_eq G G' (simplify_frame G G' hCl hsimp).1]
    exact hbK
  · have hrn : ∃ rn, phase1 G = some rn := by
      unfold simplify at hsimp
      cases hp : phase1 G with
      | none => rw [hp] at hsimp; simp at hsimp
      | some rn => exact ⟨rn, rfl⟩
    obtain ⟨rn, hp⟩ := hrn
    exact simplify_countUV_mono G G' b rn hp (hmain rn hp).1 hsimp

def wayA : Way := { id := 1, tags := [], nodes := [(1, (0, 0)), (5, (1, 0))] }

def wayB : Way := { id := 2, tags := [], nodes := [(5, (1, 0)), (9, (2, 0))] }

def sG7 : Graph := from_pbf (fun _ => true) (fun t => t) [wayA, wayB]

def sG7s : Graph := (simplify sG7).getD emptyG

theorem c7_branch_point_not_collapsed_w :
    closedGraph sG7 ∧ predecessorsOrd sG7 5 = [1] ∧ successorsOrd sG7 5 = [9] ∧
    ((∀ rn, phase1 sG7 = some rn →
      (5 : Int) ∉ candNodes rn ∧
      ∀ n ∈ candNodes rn, ∃ q t2 d1 d2, predecessorsOrd sG7 n = [q] ∧
        successorsOrd sG7 n = [t2] ∧
        edgeUV0 sG7 q n = some d1 ∧ edgeUV0 sG7 n t2 = some d2 ∧ d1.osm_id = d2.osm_id) ∧
     (5 : Int) ∈ nodeKeys sG7s ∧
     (∀ t, countUV sG7 5 t ≤ countUV sG7s 5 t)) :=
  ⟨by decide, by decide, by decide,
    c7_branch_point_not_collapsed sG7 sG7s 5 1 9
      (segAttrs 1 [] 0 1 5) (segAttrs 2 [] 0 5 9)
      (by decide) (by decide) (by decide) (by decide) (by decide) (by decide) (by decide)⟩

theorem mem_dedupFirstAux : ∀ (l seen : List Int) (a : Int),
    a ∈ dedupFirstAux seen l ↔ a ∈ l ∧ a ∉ seen := by
  intro l
  induction l with
  | nil => intro seen a; simp [dedupFirstAux]
  | cons x xs ih =>
    intro seen a
    unfold dedupFirstAux
    by_cases hx : x ∈ seen
    · rw [if_pos hx, ih]
      simp only [List.mem_cons]
      constructor
      · rintro ⟨h1, h2⟩; exact ⟨.inr h1, h2⟩
      · rintro ⟨h1 | h1, h2⟩
        · rw [h1] at h2; exact absurd hx h2
        · exact ⟨h1, h2⟩
    · rw [if_neg hx]
      simp only [List.mem_cons, ih, List.mem_cons]
      constructor
      · rintro (rfl | ⟨h1, h2⟩)
        · exact ⟨.inl rfl, hx⟩
        · exact ⟨.inr h1, fun hc => h2 (.inr hc)⟩
      · rintro ⟨rfl | h1, h2⟩
        · exact .inl rfl
        · by_cases hax : a = x
          · exact .inl hax
          · exact .inr ⟨h1, fun hc => by rcases hc with h3 | h3 <;> [exact hax h3; exact h2 h3]⟩

theorem mem_dedupFirst (l : List Int) (a : Int) : a ∈ dedupFirst l ↔ a ∈ l := by
  unfold dedupFirst
  rw [mem_dedupFirstAux]
  simp

theorem nodup_dedupFirstAux : ∀ (l seen : List Int), (dedupFirstAux seen l).Nodup := by
  intro l
  induction l with
  | nil => intro seen; exact List.nodup_nil
  | cons x xs ih =>
    intro seen
    unfold dedupFirstAux
    by_cases hx : x ∈ seen
    · rw [if_pos hx]; exact ih seen
    · rw [if_neg hx]
      refine List.Nodup.cons ?_ (ih (x :: seen))
      intro hc
      exact ((mem_dedupFirstAux xs (x :: seen) x).mp hc).2 (by simp)

theorem nodup_dedupFirst (l : List Int) : (dedupFirst l).Nodup := nodup_dedupFirstAux l []

theorem mem_successorsOrd (G : Graph) (n a : Int) :
    a ∈ successorsOrd G n ↔ ∃ e ∈ G.edges, e.u = n ∧ e.v = a := by
  unfold successorsOrd
  rw [mem_dedupFirst, List.mem_filterMap]
  constructor
  · rintro ⟨e, he, hfe⟩
    by_cases hc : e.u = n
    · rw [if_pos hc] at hfe
      simp only [Option.some.injEq] at hfe
      exact ⟨e, he, hc, hfe⟩
    · rw [if_neg hc] at hfe; exact absurd hfe (by simp)
  · rintro ⟨e, he, hu, hv⟩
    exact ⟨e, he, by rw [if_pos hu, hv]⟩

theorem nodup_successorsOrd (G : Graph) (n : Int) : (successorsOrd G n).Nodup :=
  nodup_dedupFirst _

theorem sum_map_eq_zero {alpha : Type} (l : List alpha) (f : alpha → Nat)
    (h : ∀ b ∈ l, f b = 0) : (l.map f).sum = 0 := by
  induction l with
  | nil => rfl
  | cons x xs ih =>
    simp only [List.map_cons, List.sum_cons, h x (by simp), Nat.zero_add]
    exact ih (fun b hb => h b (by simp [hb]))

theorem sum_map_eq_single {alpha : Type} (l : List alpha) (f : alpha → Nat) (a : alpha)
    (hnd : l.Nodup) (ha : a ∈ l) (h0 : ∀ b ∈ l, b ≠ a → f b = 0) : (l.map f).sum = f a := by
  induction l with
  | nil => simp at ha
  | cons x xs ih =>
    rcases List.mem_cons.mp ha with rfl | hax
    · simp only [List.map_cons, List.sum_cons]
      rw [sum_map_eq_zero xs f ?hz]
      case hz =>
        intro b hb
        exact h0 b (by simp [hb]) (fun hc => (List.nodup_cons.mp hnd).1 (hc ▸ hb))
      omega
    · simp only [List.map_cons, List.sum_cons]
      rw [h0 x (by simp) (fun hc => (List.nodup_cons.mp hnd).1 (hc ▸ hax))]
      rw [ih (List.nodup_cons.mp hnd).2 hax (fun b hb hne => h0 b (by simp [hb]) hne)]
      omega

theorem count_flatMap {alpha beta : Type} [DecidableEq beta] (l : List alpha)
    (g : alpha → List beta) (e : beta) :
    (l.flatMap g).count e = (l.map (fun x => (g x).count e)).sum := by
  rw [List.flatMap_def, List.count_flatten, List.map_map]
  rfl

/-- `G.edges(data=True)` enumerates every stored edge exactly once: the
grouped traversal is a permutation of the edge list, for graphs with
distinct node keys whose edge sources are registered. -/
theorem perm_edgesEnum (G : Graph) (hNd : (nodeKeys G).Nodup)
    (hCl : ∀ e ∈ G.edges, e.u ∈ nodeKeys G) : (edgesEnum G).Perm G.edges := by
  rw [List.perm_iff_count]
  intro e
  unfold edgesEnum
  rw [count_flatMap]
  by_cases he : e ∈ G.edges
  · have heu : e.u ∈ nodeKeys G := hCl e he
    have hev : e.v ∈ successorsOrd G e.u := (mem_successorsOrd G e.u e.v).mpr ⟨e, he, rfl, rfl⟩
    rw [sum_map_eq_single (nodeKeys G) _ e.u hNd heu ?zeroN]
    case zeroN =>
      intro n hn hne
      rw [count_flatMap]
      apply sum_map_eq_zero
      intro v2 _
      rw [List.count_eq_zero]
      intro hc
      have := of_decide_eq_true (List.mem_filter.mp hc).2
      exact hne (by rw [← this.1])
    rw [count_flatMap]
    rw [sum_map_eq_single (successorsOrd G e.u) _ e.v (nodup_successorsOrd G e.u) hev ?zeroV]
    case zeroV =>
      intro v2 _ hne
      rw [List.count_eq_zero]
      intro hc
      have := of_decide_eq_true (List.mem_filter.mp hc).2
      exact hne (by rw [← this.2])
    unfold parallelEdges
    exact List.count_filter (by simp)
  · rw [List.count_eq_zero.mpr he]
    apply sum_map_eq_zero
    intro n _
    rw [count_flatMap]
    apply sum_map_eq_zero
    intro v2 _
    rw [List.count_eq_zero]
    intro hc
    exact he (List.mem_filter.mp hc).1

/-- The feature built by `to_geojson` for one edge. -/
def featEncode (e : Edge) : Feature :=
  ⟨e.data.geometry.getD [], e.u, e.v, { e.data with geometry := none }⟩

theorem mapOption_eq_some_map {alpha beta : Type} (f : alpha → Option beta) (g : alpha → beta)
    (l : List alpha) (h : ∀ a ∈ l, f a = some (g a)) : mapOption f l = some (l.map g) := by
  induction l with
  | nil => rfl
  | cons a rest ih =>
    unfold mapOption
    rw [h a (by simp), ih (fun x hx => h x (by simp [hx]))]
    rfl

theorem map_congr_mem {alpha beta : Type} {l : List alpha} {f g : alpha → beta}
    (h : ∀ a ∈ l, f a = g a) : l.map f = l.map g := by
  induction l with
  | nil => rfl
  | cons a rest ih =>
    simp only [List.map_cons]
    rw [h a (by simp), ih (fun x hx => h x (by simp [hx]))]

theorem geom_restore (d : EdgeAttrs) (ge : List Coord) (h : d.geometry = some ge) :
    ({ { d with geometry := none } with geometry := some ge } : EdgeAttrs) = d := by
  cases d
  simp only [EdgeAttrs.mk.injEq] at h ⊢
  simp_all

theorem ensureNode_nodes_none (g : Graph) (r : Int)
    (h : ∀ kv ∈ g.nodesL, kv.2 = none) : ∀ kv ∈ (ensureNode g r).nodesL, kv.2 = none := by
  unfold ensureNode
  split
  · exact h
  · intro kv hkv
    rcases List.mem_append.mp hkv with h2 | h2
    · exact h kv h2
    · simp only [List.mem_singleton] at h2
      rw [h2]

theorem addEdge_nodes_none (g : Graph) (u v : Int) (d : EdgeAttrs)
    (h : ∀ kv ∈ g.nodesL, kv.2 = none) : ∀ kv ∈ (addEdge g u v d).nodesL, kv.2 = none := by
  show ∀ kv ∈ (ensureNode (ensureNode g u) v).nodesL, _
  exact ensureNode_nodes_none _ v (ensureNode_nodes_none g u h)

theorem foldl_addEdge_nodes_none {alpha : Type} (s : Graph → alpha → Graph)
    (pick : alpha → Int × Int × EdgeAttrs)
    (hstep : ∀ g x, s g x = addEdge g (pick x).1 (pick x).2.1 (pick x).2.2) :
    ∀ (l : List alpha) (g : Graph), (∀ kv ∈ g.nodesL, kv.2 = none) →
      ∀ kv ∈ (l.foldl s g).nodesL, kv.2 = none := by
  intro l
  induction l with
  | nil => intro g hg; exact hg
  | cons x xs ih =>
    intro g hg
    rw [List.foldl_cons]
    refine ih (s g x) ?_
    rw [hstep g x]
    exact addEdge_nodes_none g _ _ _ hg

/-- C6 (round trip).  For a finished graph (every edge carrying a
geometry), writing the exchange document and reading it back
reproduces the same multiset of directed edges with identical
endpoints and attribute values (geometry restored in place of the
popped field); the reloaded graph's nodes carry no coordinate
attributes — node-only data does not survive the round trip. -/
theorem c6_exchange_round_trip (G : Graph) (hNd : (nodeKeys G).Nodup) (hCl : closedGraph G)
    (hGeom : ∀ e ∈ G.edges, (e.data.geometry).isSome) :
    ∃ fs, to_geojson G = some fs ∧
      ((from_geojson fs).edges.map toTriple).Perm (G.edges.map toTriple) ∧
      ∀ kv ∈ (from_geojson fs).nodesL, kv.2 = none := by
  have hperm := perm_edgesEnum G hNd (fun e he => (hCl e he).1)
  have henc : ∀ e ∈ edgesEnum G,
      (fun e2 : Edge => match e2.data.geometry with
        | none => none
        | some geom => some (⟨geom, e2.u, e2.v, { e2.data with geometry := none }⟩ : Feature)) e
        = some (featEncode e) := by
    intro e he
    obtain ⟨ge, hge⟩ := Option.isSome_iff_exists.mp (hGeom e (hperm.mem_iff.mp he))
    show (match e.data.geometry with
      | none => none
      | some geom => some (⟨geom, e.u, e.v, { e.data with geometry := none }⟩ : Feature)) = _
    rw [hge]
    dsimp only
    unfold featEncode
    rw [hge]
    rfl
  have hfs : to_geojson G = some ((edgesEnum G).map featEncode) :=
    mapOption_eq_some_map _ featEncode (edgesEnum G) henc
  refine ⟨(edgesEnum G).map featEncode, hfs, ?_, ?_⟩
  · have hedges : ((from_geojson ((edgesEnum G).map featEncode)).edges).map toTriple =
        ((edgesEnum G).map featEncode).map
          (fun fe => (fe.fu, fe.fv, { fe.props with geometry := some fe.geometry })) := by
      unfold from_geojson
      have h1 := foldl_edges_map
        (fun g fe => addEdge g fe.fu fe.fv { fe.props with geometry := some fe.geometry })
        (fun fe => (fe.fu, fe.fv, { fe.props with geometry := some fe.geometry }))
        (fun g x => addEdge_edges_map _ _ _ _)
        ((edgesEnum G).map featEncode) emptyG
      simpa using h1
    rw [hedges, List.map_map]
    have hfun : ∀ e ∈ edgesEnum G,
        ((fun fe : Feature => (fe.fu, fe.fv, { fe.props with geometry := some fe.geometry }))
          ∘ featEncode) e = toTriple e := by
      intro e he
      obtain ⟨ge, hge⟩ := Option.isSome_iff_exists.mp (hGeom e (hperm.mem_iff.mp he))
      have h3 : ({ { e.data with geometry := none } with
          geometry := some (e.data.geometry.getD []) } : EdgeAttrs) = e.data := by
        rw [hge]
        exact geom_restore e.data ge hge
      exact congrArg (fun d => (e.u, e.v, d)) h3
    rw [map_congr_mem hfun]
    exact hperm.map toTriple
  · unfold from_geojson
    exact foldl_addEdge_nodes_none _
      (fun fe : Feature => (fe.fu, fe.fv, { fe.props with geometry := some fe.geometry }))
      (fun g x => rfl) _ emptyG (by simp [emptyG])

theorem c6_exchange_round_trip_w :
    (nodeKeys okG2).Nodup ∧ closedGraph okG2 ∧
    (∀ e ∈ okG2.edges, (e.data.geometry).isSome) ∧
    (∃ fs, to_geojson okG2 = some fs ∧
      ((from_geojson fs).edges.map toTriple).Perm (okG2.edges.map toTriple) ∧
      ∀ kv ∈ (from_geojson fs).nodesL, kv.2 = none) :=
  ⟨by decide, by decide, by decide,
    c6_exchange_round_trip okG2 (by decide) (by decide) (by decide)⟩

theorem mem_nodeKeys_ensureNode (g : Graph) (r n : Int) :
    n ∈ nodeKeys (ensureNode g r) ↔ n ∈ nodeKeys g ∨ n = r := by
  unfold ensureNode
  split
  · constructor
    · exact fun h2 => .inl h2
    · rintro (h2 | rfl)
      · exact h2
      · assumption
  · show n ∈ (g.nodesL ++ [(r, none)]).map Prod.fst ↔ _
    rw [List.map_append, List.mem_append]
    simp [nodeKeys]

theorem mem_nodeKeys_addEdge (g : Graph) (u v : Int) (d : EdgeAttrs) (n : Int) :
    n ∈ nodeKeys (addEdge g u v d) ↔ n ∈ nodeKeys g ∨ n = u ∨ n = v := by
  show n ∈ nodeKeys (ensureNode (ensureNode g u) v) ↔ _
  rw [mem_nodeKeys_ensureNode, mem_nodeKeys_ensureNode]
  tauto

theorem foldl_addEdge_keys_mem {alpha : Type} (s : Graph → alpha → Graph)
    (pick : alpha → Int × Int × EdgeAttrs)
    (hstep : ∀ g x, s g x = addEdge g (pick x).1 (pick x).2.1 (pick x).2.2) :
    ∀ (l : List alpha) (g : Graph) (n : Int),
      n ∈ nodeKeys (l.foldl s g) ↔ n ∈ nodeKeys g ∨ ∃ x ∈ l, n = (pick x).1 ∨ n = (pick x).2.1 := by
  intro l
  induction l with
  | nil => intro g n; simp
  | cons x xs ih =>
    intro g n
    rw [List.foldl_cons, ih, hstep, mem_nodeKeys_addEdge]
    simp only [List.mem_cons]
    constructor
    · rintro ((h | h | h) | ⟨y, hy, hv⟩)
      · exact .inl h
      · exact .inr ⟨x, .inl rfl, .inl h⟩
      · exact .inr ⟨x, .inl rfl, .inr h⟩
      · exact .inr ⟨y, .inr hy, hv⟩
    · rintro (h | ⟨y, rfl | hy, hv⟩)
      · exact .inl (.inl h)
      · exact .inl (by tauto)
      · exact .inr ⟨y, hy, hv⟩

theorem nodup_nodeKeys_ensureNode (g : Graph) (r : Int) (h : (nodeKeys g).Nodup) :
    (nodeKeys (ensureNode g r)).Nodup := by
  by_cases hmem : r ∈ nodeKeys g
  · rw [ensureNode_of_mem g r hmem]; exact h
  · unfold ensureNode
    rw [if_neg hmem]
    show ((g.nodesL ++ [(r, none)]).map Prod.fst).Nodup
    rw [List.map_append]
    simp only [List.map_cons, List.map_nil]
    rw [List.nodup_append]
    refine ⟨h, List.nodup_singleton r, ?_⟩
    intro a ha hb
    simp only [List.mem_singleton] at hb
    rw [hb] at ha
    exact hmem ha

theorem nodup_nodeKeys_addEdge (g : Graph) (u v : Int) (d : EdgeAttrs)
    (h : (nodeKeys g).Nodup) : (nodeKeys (addEdge g u v d)).Nodup := by
  show (nodeKeys (ensureNode (ensureNode g u) v)).Nodup
  exact nodup_nodeKeys_ensureNode _ v (nodup_nodeKeys_ensureNode g u h)

theorem foldl_addEdge_keys_nodup {alpha : Type} (s : Graph → alpha → Graph)
    (pick : alpha → Int × Int × EdgeAttrs)
    (hstep : ∀ g x, s g x = addEdge g (pick x).1 (pick x).2.1 (pick x).2.2) :
    ∀ (l : List alpha) (g : Graph), (nodeKeys g).Nodup → (nodeKeys (l.foldl s g)).Nodup := by
  intro l
  induction l with
  | nil => intro g hg; exact hg
  | cons x xs ih =>
    intro g hg
    rw [List.foldl_cons]
    refine ih (s g x) ?_
    rw [hstep]
    exact nodup_nodeKeys_addEdge g _ _ _ hg

theorem find?_update_self (l : List (Int × Option Coord)) (r : Int) (c : Coord)
    (h : r ∈ l.map Prod.fst) :
    (l.map (fun kv => if kv.1 = r then (kv.1, some c) else kv)).find?
      (fun kv => decide (kv.1 = r)) = some (r, some c) := by
  induction l with
  | nil => simp at h
  | cons kv l2 ih =>
    simp only [List.map_cons]
    by_cases hk : kv.1 = r
    · rw [if_pos hk]
      rw [List.find?_cons_of_pos _ (by simp [hk])]
      rw [hk]
    · rw [if_neg hk]
      rw [List.find?_cons_of_neg _ (by simp [hk])]
      refine ih ?_
      simp only [List.map_cons, List.mem_cons] at h
      rcases h with h2 | h2
      · exact absurd h2.symm hk
      · exact h2

theorem find?_update_other (l : List (Int × Option Coord)) (r : Int) (c : Coord) (r2 : Int)
    (hne : r2 ≠ r) :
    (l.map (fun kv => if kv.1 = r then (kv.1, some c) else kv)).find?
      (fun kv => decide (kv.1 = r2)) = l.find? (fun kv => decide (kv.1 = r2)) := by
  induction l with
  | nil => rfl
  | cons kv l2 ih =>
    simp only [List.map_cons]
    by_cases hk : kv.1 = r
    · have hk2 : ¬ kv.1 = r2 := by rw [hk]; exact fun h2 => hne h2.symm
      rw [if_pos hk]
      rw [List.find?_cons_of_neg _ (by simp [hk2]), List.find?_cons_of_neg _ (by simp [hk2])]
      exact ih
    · rw [if_neg hk]
      by_cases hk2 : kv.1 = r2
      · rw [List.find?_cons_of_pos _ (by simp [hk2]), List.find?_cons_of_pos _ (by simp [hk2])]
      · rw [List.find?_cons_of_neg _ (by simp [hk2]), List.find?_cons_of_neg _ (by simp [hk2])]
        exact ih

theorem setNodeAttr_none_of_mem (g : Graph) (r : Int) (h : r ∈ nodeKeys g) :
    setNodeAttr g r none = g := by
  unfold setNodeAttr
  rw [if_pos h]

theorem nodeCoord_setNodeAttr_some_self (g : Graph) (r : Int) (c : Coord)
    (h : r ∈ nodeKeys g) : nodeCoord (setNodeAttr g r (some c)) r = some (some c) := by
  unfold setNodeAttr
  rw [if_pos h]
  unfold nodeCoord
  show ((g.nodesL.map _).find? _).map _ = _
  rw [find?_update_self g.nodesL r c h]
  rfl

theorem nodeCoord_setNodeAttr_some_other (g : Graph) (r : Int) (c : Coord) (r2 : Int)
    (h : r ∈ nodeKeys g) (hne : r2 ≠ r) :
    nodeCoord (setNodeAttr g r (some c)) r2 = nodeCoord g r2 := by
  unfold setNodeAttr
  rw [if_pos h]
  unfold nodeCoord
  show ((g.nodesL.map _).find? _).map _ = _
  rw [find?_update_other g.nodesL r c r2 hne]

theorem setNodeAttr_some_nodeKeys (g : Graph) (r : Int) (c : Coord) (h : r ∈ nodeKeys g) :
    nodeKeys (setNodeAttr g r (some c)) = nodeKeys g := by
  unfold setNodeAttr
  rw [if_pos h]
  show (g.nodesL.map _).map Prod.fst = _
  rw [List.map_map]
  refine map_congr_mem ?_
  intro kv _
  by_cases hk : kv.1 = r
  · simp [Function.comp, if_pos hk]
  · simp [Function.comp, if_neg hk]

theorem mem_nodeKeys_iff_nodeCoord (g : Graph) (n : Int) :
    n ∈ nodeKeys g ↔ ∃ d, nodeCoord g n = some d := by
  unfold nodeKeys nodeCoord
  induction g.nodesL with
  | nil => simp
  | cons kv l ih =>
    simp only [List.map_cons, List.mem_cons]
    by_cases hk : kv.1 = n
    · rw [List.find?_cons_of_pos _ (by simp [hk])]
      simp [hk]
    · rw [List.find?_cons_of_neg _ (by simp [hk])]
      rw [ih]
      constructor
      · rintro (h | h)
        · exact absurd h.symm hk
        · exact h
      · exact fun h => .inr h

theorem setNodeAttr_nodesL_keep_edges (g : Graph) (r : Int) (d : Option Coord) :
    (setNodeAttr g r d).edges = g.edges := setNodeAttr_edges g r d

/-- The node-attribute copy loop at the end of `filter_edges`: over a
duplicate-free key list whose nodes exist in both graphs and start
without attributes, it succeeds and leaves each copied node with the
source's attribute value. -/
theorem copyFold (G : Graph) : ∀ (K : List Int) (g : Graph),
    K.Nodup → (∀ n ∈ K, n ∈ nodeKeys g) → (∀ n ∈ K, n ∈ nodeKeys G) →
    (∀ n ∈ K, nodeCoord g n = some none) →
    ∃ g2, (K.foldlM (fun g3 n => match nodeCoord G n with
        | none => none
        | some d => some (setNodeAttr g3 n d)) g) = some g2 ∧
      nodeKeys g2 = nodeKeys g ∧ g2.edges = g.edges ∧
      (∀ n ∈ K, nodeCoord g2 n = nodeCoord G n) ∧
      (∀ n, n ∉ K → nodeCoord g2 n = nodeCoord g n) := by
  intro K
  induction K with
  | nil =>
    intro g _ _ _ _
    refine ⟨g, ?_, rfl, rfl, ?_, ?_⟩
    · rw [List.foldlM_nil]; rfl
    · intro n hn; simp at hn
    · intro n _; rfl
  | cons n K2 ih =>
    intro g hnd hkeysg hkeysG hnone
    have hnK2 : n ∉ K2 := (List.nodup_cons.mp hnd).1
    have hng : n ∈ nodeKeys g := hkeysg n (by simp)
    obtain ⟨d, hd⟩ := (mem_nodeKeys_iff_nodeCoord G n).mp (hkeysG n (by simp))
    rw [List.foldlM_cons]
    cases d with
    | none =>
      rw [hd]
      simp only [Option.bind_eq_bind, Option.some_bind]
      rw [setNodeAttr_none_of_mem g n hng]
      obtain ⟨g2, hfold, hk2, he2, hcopy, hstable⟩ := ih g (List.nodup_cons.mp hnd).2
        (fun m hm => hkeysg m (by simp [hm])) (fun m hm => hkeysG m (by simp [hm]))
        (fun m hm => hnone m (by simp [hm]))
      refine ⟨g2, hfold, hk2, he2, ?_, ?_⟩
      · intro m hm
        rcases List.mem_cons.mp hm with rfl | hm2
        · rw [hstable m hnK2, hnone m (by simp), hd]
        · exact hcopy m hm2
      · intro m hm
        exact hstable m (fun hc => hm (by simp [hc]))
    | some c =>
      rw [hd]
      simp only [Option.bind_eq_bind, Option.some_bind]
      have hkeq := setNodeAttr_some_nodeKeys g n c hng
      obtain ⟨g2, hfold, hk2, he2, hcopy, hstable⟩ := ih (setNodeAttr g n (some c))
        (List.nodup_cons.mp hnd).2
        (fun m hm => by rw [hkeq]; exact hkeysg m (by simp [hm]))
        (fun m hm => hkeysG m (by simp [hm]))
        (fun m hm => by
          rw [nodeCoord_setNodeAttr_some_other g n c m hng
            (fun hc => hnK2 (hc ▸ hm))]
          exact hnone m (by simp [hm]))
      refine ⟨g2, hfold, by rw [hk2, hkeq], by rw [he2, setNodeAttr_edges], ?_, ?_⟩
      · intro m hm
        rcases List.mem_cons.mp hm with rfl | hm2
        · rw [hstable m hnK2, nodeCoord_setNodeAttr_some_self g m c hng, hd]
        · exact hcopy m hm2
      · intro m hm
        rw [hstable m (fun hc => hm (by simp [hc]))]
        exact nodeCoord_setNodeAttr_some_other g n c m hng (fun hc => hm (by simp [hc]))

/-- C8.  `filter_edges` returns a graph whose edges are exactly the
source edges passing the predicate (as a multiset of `(u, v, data)`
triples), whose nodes are exactly the endpoints of surviving edges,
each with its attribute value copied from the source registry. -/
theorem c8_filter_edges_sound (G : Graph) (p : Int → Int → EdgeAttrs → Bool)
    (hNd : (nodeKeys G).Nodup) (hCl : closedGraph G) :
    ∃ G2, filter_edges p G = some G2 ∧
      (G2.edges.map toTriple).Perm ((G.edges.filter (fun e => p e.u e.v e.data)).map toTriple) ∧
      (∀ n, n ∈ nodeKeys G2 ↔ ∃ e ∈ G.edges, p e.u e.v e.data ∧ (n = e.u ∨ n = e.v)) ∧
      (∀ n ∈ nodeKeys G2, nodeCoord G2 n = nodeCoord G n) := by
  have hperm := perm_edgesEnum G hNd (fun e he => (hCl e he).1)
  have hLmem : ∀ e, e ∈ (edgesEnum G).filter (fun e2 => p e2.u e2.v e2.data) ↔
      e ∈ G.edges ∧ p e.u e.v e.data := by
    intro e
    rw [List.mem_filter, hperm.mem_iff]
  obtain ⟨base, hbase⟩ : ∃ b, ((edgesEnum G).filter (fun e2 => p e2.u e2.v e2.data)).foldl
      (fun (g : Graph) (e : Edge) => addEdge g e.u e.v e.data) emptyG = b := ⟨_, rfl⟩
  have hbaseE : base.edges.map toTriple =
      ((edgesEnum G).filter (fun e2 => p e2.u e2.v e2.data)).map toTriple := by
    rw [← hbase]
    have h1 := foldl_edges_map (fun (g : Graph) (e : Edge) => addEdge g e.u e.v e.data) toTriple
      (fun g x => addEdge_edges_map _ _ _ _)
      ((edgesEnum G).filter (fun e2 => p e2.u e2.v e2.data)) emptyG
    simpa using h1
  have hbaseK : ∀ n, n ∈ nodeKeys base ↔
      ∃ e ∈ G.edges, p e.u e.v e.data ∧ (n = e.u ∨ n = e.v) := by
    intro n
    rw [← hbase]
    have h2 := foldl_addEdge_keys_mem (fun (g : Graph) (e : Edge) => addEdge g e.u e.v e.data)
      (fun e => (e.u, e.v, e.data)) (fun g x => rfl)
      ((edgesEnum G).filter (fun e2 => p e2.u e2.v e2.data)) emptyG n
    rw [h2]
    constructor
    · rintro (h | ⟨e, he, hv⟩)
      · simp [emptyG, nodeKeys] at h
      · obtain ⟨he2, hp⟩ := (hLmem e).mp he
        exact ⟨e, he2, hp, hv⟩
    · rintro ⟨e, he, hp, hv⟩
      exact .inr ⟨e, (hLmem e).mpr ⟨he, hp⟩, hv⟩
  have hbaseNd : (nodeKeys base).Nodup := by
    rw [← hbase]
    exact foldl_addEdge_keys_nodup (fun (g : Graph) (e : Edge) => addEdge g e.u e.v e.data)
      (fun e => (e.u, e.v, e.data)) (fun g x => rfl) _ emptyG (by simp [emptyG, nodeKeys])
  have hbaseNone : ∀ kv ∈ base.nodesL, kv.2 = none := by
    rw [← hbase]
    exact foldl_addEdge_nodes_none (fun (g : Graph) (e : Edge) => addEdge g e.u e.v e.data)
      (fun e => (e.u, e.v, e.data)) (fun g x => rfl) _ emptyG (by simp [emptyG])
  have hbaseCoord : ∀ n ∈ nodeKeys base, nodeCoord base n = some none := by
    intro n hn
    obtain ⟨d, hd⟩ := (mem_nodeKeys_iff_nodeCoord base n).mp hn
    have hdn : d = none := by
      unfold nodeCoord at hd
      obtain ⟨kv, hfind, hsnd⟩ := Option.map_eq_some'.mp hd
      rw [← hsnd]
      exact hbaseNone kv (List.mem_of_find?_eq_some hfind)
    rw [hd, hdn]
  obtain ⟨G2, hfold, hkeys, hedges, hcopy, _⟩ := copyFold G (nodeKeys base) base
    hbaseNd (fun n hn => hn)
    (fun n hn => by
      obtain ⟨e, he, _, hv⟩ := (hbaseK n).mp hn
      rcases hv with rfl | rfl
      · exact (hCl e he).1
      · exact (hCl e he).2)
    hbaseCoord
  refine ⟨G2, ?_, ?_, ?_, ?_⟩
  · show (nodeKeys (((edgesEnum G).filter (fun e2 => p e2.u e2.v e2.data)).foldl
      (fun (g : Graph) (e : Edge) => addEdge g e.u e.v e.data) emptyG)).foldlM _
      (((edgesEnum G).filter (fun e2 => p e2.u e2.v e2.data)).foldl
        (fun (g : Graph) (e : Edge) => addEdge g e.u e.v e.data) emptyG) = some G2
    rw [hbase]
    exact hfold
  · rw [hedges, hbaseE]
    exact (hperm.filter (fun e2 => p e2.u e2.v e2.data)).map toTriple
  · intro n
    rw [hkeys]
    exact hbaseK n
  · intro n hn
    rw [hkeys] at hn
    exact hcopy n hn

theorem c8_filter_edges_sound_w :
    (nodeKeys sG0).Nodup ∧ closedGraph sG0 ∧
    (∃ G2, filter_edges (fun u _ _ => decide (u = 100)) sG0 = some G2 ∧
      (G2.edges.map toTriple).Perm
        ((sG0.edges.filter (fun e => decide (e.u = 100))).map toTriple) ∧
      (∀ n, n ∈ nodeKeys G2 ↔
        ∃ e ∈ sG0.edges, decide (e.u = 100) ∧ (n = e.u ∨ n = e.v)) ∧
      (∀ n ∈ nodeKeys G2, nodeCoord G2 n = nodeCoord sG0 n)) :=
  ⟨by decide, by decide,
    c8_filter_edges_sound sG0 (fun u _ _ => decide (u = 100)) (by decide) (by decide)⟩
